import Mathlib

/-!
Verification development for the bigvector program (pointlander/bigvector).

The program builds fixed-dimension integer vectors for documents and words
from raw text: a streaming tokenizer feeds a 17-slot circular window, hashed
bigram keys are projected to sparse ternary vectors via a PRNG seeded by a
64-bit FNV hash (memoized per document), the projections are accumulated into
one document vector and per-center-word vectors, per-document results are
merged into a corpus, and cosine similarity ranks documents and words.

Modelling conventions used throughout this file:
- Go strings are modelled as lists of characters (`Tok`); byte-level hashing
  goes through an explicit UTF-8 encoder.
- Go's `uint64` arithmetic is modelled on `Nat` with explicit `% 2 ^ 64`.
- Go maps are modelled as functions into `Option` (no iteration order), and a
  map that is only ever iterated is modelled as its entry list.
- `math/rand` seeded by a hash is modelled by an arbitrary deterministic
  draw function `draw : Nat -> Nat -> Fin 6` (seed, draw index); the Go
  generator is one such function, and no claim below depends on its bits.
- `float64` is modelled by `GoFloat`: NaN, signed infinities, or an exact
  rational.  Every floating-point value reached by a concrete input of a
  theorem below is exactly representable (small integers, Pythagorean
  ratios), where IEEE doubles compute exactly; square roots are relied
  upon only where they are exact or taken at zero.
- A Go runtime panic (index out of range on a nil slice) is modelled by
  `Option.none`.
-/

set_option maxRecDepth 8000

unseal Rat.mul Rat.add Rat.inv Rat.sub Rat.ofScientific

/-- Dimension of every document/word vector (`vectorSize` in the source). -/
def vectorSize : ℕ := 1024

/-- Capacity of the sliding context window (`bufferSize` in the source). -/
def bufferSize : ℕ := 17

/-- Number of entries kept by the word-ranking selection (the `best` array). -/
def bestSize : ℕ := 20

/-- Tokens (Go strings) are lists of characters. -/
abbrev Tok : Type := List Char

/-- Circular buffer of the `bufferSize` most recent tokens
(`CircularBuffer` in the source): backing slice, write index, and the
index of the previously written slot. -/
structure CircBuf where
  buffer : List Tok
  index : ℕ
  prev : ℕ
  deriving DecidableEq

/-- Fresh circular buffer (`NewCircularBuffer`): `bufferSize` empty strings,
both positions zero (Go zero values). -/
def CircBuf.new : CircBuf :=
  ⟨List.replicate bufferSize [], 0, 0⟩

/-- Model of `CircularBuffer.Push`: write at the current index, advance the
index modulo `bufferSize`, remember the written slot. -/
def CircBuf.push (c : CircBuf) (a : Tok) : CircBuf :=
  ⟨c.buffer.set c.index a, (c.index + 1) % bufferSize, c.index⟩

/-- Model of `CircularBuffer.Item`: the token stored at offset `i` from the
current write position, modulo `bufferSize`. -/
def CircBuf.item (c : CircBuf) (i : ℕ) : Tok :=
  c.buffer.getD ((c.index + i) % bufferSize) []

/-- Model of `CircularBuffer.GetPrevious`: the most recently written token. -/
def CircBuf.getPrev (c : CircBuf) : Tok :=
  c.buffer.getD c.prev []

/-- Push a whole list of tokens, oldest first. -/
def CircBuf.pushAll (c : CircBuf) (ts : List Tok) : CircBuf :=
  ts.foldl CircBuf.push c

theorem CircBuf.pushAll_append (c : CircBuf) (ts : List Tok) (t : Tok) :
    c.pushAll (ts ++ [t]) = (c.pushAll ts).push t := by
  simp [CircBuf.pushAll]

theorem CircBuf.length_buffer_push (c : CircBuf) (a : Tok) :
    (c.push a).buffer.length = c.buffer.length := by
  simp [CircBuf.push]

theorem CircBuf.length_buffer_pushAll (c : CircBuf) (ts : List Tok) :
    (c.pushAll ts).buffer.length = c.buffer.length := by
  induction ts using List.reverseRecOn with
  | nil => rfl
  | append_singleton ts t ih =>
      rw [CircBuf.pushAll_append, CircBuf.length_buffer_push, ih]

theorem CircBuf.index_pushAll (ts : List Tok) :
    (CircBuf.new.pushAll ts).index = ts.length % bufferSize := by
  have hb : bufferSize = 17 := rfl
  induction ts using List.reverseRecOn with
  | nil => rfl
  | append_singleton ts t ih =>
      rw [CircBuf.pushAll_append]
      show ((CircBuf.new.pushAll ts).index + 1) % bufferSize = _
      rw [ih]
      simp only [List.length_append, List.length_singleton, hb]
      omega

/-- Window characterisation at every fill level: reading offset
`i < bufferSize` after the tokens `ts` have been pushed yields the
`(ts.length + i - bufferSize)`-th pushed token when that is a valid
position, and the empty sentinel token otherwise. -/
theorem CircBuf.item_pushAll (ts : List Tok) (i : ℕ) (hi : i < bufferSize) :
    (CircBuf.new.pushAll ts).item i =
      if ts.length + i < bufferSize then []
      else ts.getD (ts.length + i - bufferSize) [] := by
  have hb : bufferSize = 17 := rfl
  induction ts using List.reverseRecOn generalizing i with
  | nil =>
      rw [if_pos (by simp only [List.length_nil]; omega)]
      show (List.replicate bufferSize ([] : Tok)).getD ((0 + i) % bufferSize) [] = []
      rw [List.getD_eq_getElem?_getD, List.getElem?_replicate]
      split <;> rfl
  | append_singleton ts t ih =>
      have hidx : (CircBuf.new.pushAll ts).index = ts.length % bufferSize :=
        CircBuf.index_pushAll ts
      have hlen : (CircBuf.new.pushAll ts).buffer.length = bufferSize := by
        rw [CircBuf.length_buffer_pushAll]
        simp [CircBuf.new]
      rw [CircBuf.pushAll_append]
      show ((CircBuf.new.pushAll ts).buffer.set (CircBuf.new.pushAll ts).index t).getD
          ((((CircBuf.new.pushAll ts).index + 1) % bufferSize + i) % bufferSize) [] = _
      rw [hidx]
      by_cases hlast : i = bufferSize - 1
      · have hslot : ((ts.length % bufferSize + 1) % bufferSize + i) % bufferSize
            = ts.length % bufferSize := by
          rw [hlast, hb]
          omega
        rw [hslot, List.getD_eq_getElem?_getD]
        have hset : ((CircBuf.new.pushAll ts).buffer.set (ts.length % bufferSize) t)[
            ts.length % bufferSize]? = some t := by
          have hm : ts.length % bufferSize < (CircBuf.new.pushAll ts).buffer.length := by
            rw [hlen, hb]
            omega
          simp [hm]
        rw [hset]
        rw [if_neg (by simp only [List.length_append, List.length_singleton, hb]; omega)]
        have hix : (ts ++ [t]).length + i - bufferSize = ts.length := by
          simp only [List.length_append, List.length_singleton, hlast, hb]
          omega
        rw [hix, List.getD_eq_getElem?_getD]
        have : (ts ++ [t])[ts.length]? = some t := by
          rw [List.getElem?_append_right (Nat.le_refl _)]
          simp
        rw [this]
      · have hne : ts.length % bufferSize
            ≠ ((ts.length % bufferSize + 1) % bufferSize + i) % bufferSize := by
          rw [hb] at hi ⊢
          omega
        rw [List.getD_eq_getElem?_getD, List.getElem?_set_ne hne,
          ← List.getD_eq_getElem?_getD]
        have hsl : ((ts.length % bufferSize + 1) % bufferSize + i) % bufferSize
            = (ts.length % bufferSize + (i + 1)) % bufferSize := by
          rw [hb]
          omega
        have hih := ih (i + 1) (by rw [hb] at hi hlast ⊢; omega)
        rw [CircBuf.item, hidx] at hih
        rw [hsl, hih]
        have hcond : ts.length + (i + 1) < bufferSize ↔ (ts ++ [t]).length + i < bufferSize := by
          simp only [List.length_append, List.length_singleton]
          omega

        by_cases hc : ts.length + (i + 1) < bufferSize
        · rw [if_pos hc, if_pos (hcond.mp hc)]
        · rw [if_neg hc, if_neg (fun h => hc (hcond.mpr h))]
          have hk : (ts ++ [t]).length + i - bufferSize = ts.length + (i + 1) - bufferSize := by
            simp only [List.length_append, List.length_singleton]
            omega
          rw [hk]
          have hklt : ts.length + (i + 1) - bufferSize < ts.length := by
            rw [hb] at hc hi hlast ⊢
            omega
          rw [List.getD_eq_getElem?_getD, List.getD_eq_getElem?_getD,
            List.getElem?_append_left hklt]

/-- C6: after `N ≥ bufferSize` tokens have been pushed into a fresh window,
`item i` for `i < bufferSize` returns the `(N - bufferSize + i)`-th pushed
token: the window holds exactly the last `bufferSize` tokens in push order,
`item 0` the oldest retained and `item (bufferSize - 1)` the most recent, and
this invariant persists after every further push (the statement quantifies
over every pushed sequence `ts`). -/
theorem c6_window_invariant (ts : List Tok) (hfull : bufferSize ≤ ts.length)
    (i : ℕ) (hi : i < bufferSize) :
    (CircBuf.new.pushAll ts).item i = ts.getD (ts.length - bufferSize + i) [] := by
  rw [CircBuf.item_pushAll ts i hi, if_neg (by omega)]
  congr 1
  omega

/-- Witness for C6: pushing 18 single-letter tokens, offset 0 reads the
second token pushed (the oldest of the last 17) and offset 16 the last. -/
theorem c6_window_witness :
    (CircBuf.new.pushAll ((List.range 18).map (fun n => [Char.ofNat (97 + n)]))).item 0
      = [Char.ofNat 98]
    ∧ (CircBuf.new.pushAll ((List.range 18).map (fun n => [Char.ofNat (97 + n)]))).item 16
      = [Char.ofNat 114] :=
  ⟨(c6_window_invariant ((List.range 18).map (fun n => [Char.ofNat (97 + n)]))
      (by decide) 0 (by decide)).trans (by decide),
   (c6_window_invariant ((List.range 18).map (fun n => [Char.ofNat (97 + n)]))
      (by decide) 16 (by decide)).trans (by decide)⟩

/-- Character class of the source token loop: the branch condition
`unicode.IsLetter(r) || r == APOSTROPHE`, parametrised by the letter
predicate (the Unicode letter table is external to the program). -/
def isTokChar (isL : Char → Bool) (c : Char) : Bool :=
  isL c || c == Char.ofNat 39

/-- Streaming tokenizer state machine extracted from `ProcessStream`: the
accumulating `word` buffer, lowercasing on append, emission on a separator
with a non-empty buffer, and the trailing buffer discarded at end of input.
This definition returns only the emitted token sequence. -/
def tokenizeAux (isL : Char → Bool) (toLow : Char → Char) :
    Tok → List Char → List Tok
  | _, [] => []
  | word, c :: cs =>
    if isTokChar isL c then tokenizeAux isL toLow (word ++ [toLow c]) cs
    else if word ≠ [] then word :: tokenizeAux isL toLow [] cs
    else tokenizeAux isL toLow word cs

/-- Tokens emitted by the source loop on a whole character stream. -/
def tokenize (isL : Char → Bool) (toLow : Char → Char) (cs : List Char) : List Tok :=
  tokenizeAux isL toLow [] cs

/-- Modelled from the spec's words: remove the trailing run of token
characters (the buffer content discarded at end of stream). -/
def dropTrailingRun (p : Char → Bool) (cs : List Char) : List Char :=
  (cs.reverse.dropWhile p).reverse

/-- Modelled from the spec's words: the maximal non-empty runs of characters
satisfying `p`, in input order. -/
def maxRuns (p : Char → Bool) : List Char → List (List Char)
  | [] => []
  | c :: cs =>
    if p c then (c :: cs.takeWhile p) :: maxRuns p (cs.dropWhile p)
    else maxRuns p cs
termination_by cs => cs.length
decreasing_by
  · simp only [List.length_cons]
    exact Nat.lt_succ_of_le ((List.dropWhile_sublist p).length_le)
  · simp only [List.length_cons]
    exact Nat.lt_succ_self _

/-- Modelled from the spec's words: the tokenizer's contract, stated
independently of the loop — the maximal runs of letters/apostrophes, each
case-folded, with a trailing run not terminated by a separator discarded. -/
def specTokenize (isL : Char → Bool) (toLow : Char → Char) (cs : List Char) : List Tok :=
  (maxRuns (isTokChar isL) (dropTrailingRun (isTokChar isL) cs)).map (List.map toLow)

theorem tokenizeAux_all_tok (isL : Char → Bool) (toLow : Char → Char)
    (cs : List Char) (hall : ∀ c ∈ cs, isTokChar isL c) :
    ∀ w, tokenizeAux isL toLow w cs = [] := by
  induction cs with
  | nil => intro w; rfl
  | cons c cs ih =>
      intro w
      rw [tokenizeAux, if_pos (hall c (List.mem_cons_self c cs))]
      exact ih (fun d hd => hall d (List.mem_cons_of_mem c hd)) _

theorem tokenizeAux_run (isL : Char → Bool) (toLow : Char → Char)
    (A : List Char) (d : Char) (rest : List Char)
    (hA : ∀ a ∈ A, isTokChar isL a) (hd : isTokChar isL d = false) :
    ∀ w, tokenizeAux isL toLow w (A ++ d :: rest) =
      if w ++ A.map toLow = [] then tokenizeAux isL toLow [] rest
      else (w ++ A.map toLow) :: tokenizeAux isL toLow [] rest := by
  induction A with
  | nil =>
      intro w
      simp only [List.nil_append, List.map_nil, List.append_nil]
      rw [tokenizeAux, if_neg (by simp [hd])]
      by_cases hw : w = []
      · subst hw
        simp
      · rw [if_pos hw, if_neg hw]
  | cons a A ih =>
      intro w
      have ha : isTokChar isL a := hA a (List.mem_cons_self a A)
      rw [List.cons_append, tokenizeAux, if_pos ha,
        ih (fun x hx => hA x (List.mem_cons_of_mem a hx)) (w ++ [toLow a])]
      have hne : w ++ [toLow a] ++ A.map toLow ≠ [] := by simp
      rw [if_neg hne, if_neg (by simp)]
      simp

theorem dropTrailingRun_all (p : Char → Bool) (cs : List Char)
    (hall : ∀ c ∈ cs, p c) : dropTrailingRun p cs = [] := by
  unfold dropTrailingRun
  have h : cs.reverse.dropWhile p = [] := by
    rw [List.dropWhile_eq_nil_iff]
    intro a ha
    exact hall a (List.mem_reverse.mp ha)
  rw [h, List.reverse_nil]

theorem dropWhile_append_sep (p : Char → Bool) (d : Char) (hd : p d = false)
    (Y : List Char) : ∀ X, List.dropWhile p (X ++ d :: Y) = List.dropWhile p X ++ d :: Y := by
  intro X
  induction X with
  | nil => simp [List.dropWhile_cons, hd]
  | cons x X ih =>
      by_cases hx : p x
      · rw [List.cons_append, List.dropWhile_cons, if_pos hx, ih,
          List.dropWhile_cons, if_pos hx]
      · rw [List.cons_append, List.dropWhile_cons, if_neg hx,
          List.dropWhile_cons, if_neg hx, List.cons_append]

theorem dropTrailingRun_append_sep (p : Char → Bool) (A : List Char) (d : Char)
    (rest : List Char) (hd : p d = false) :
    dropTrailingRun p (A ++ d :: rest) = A ++ d :: dropTrailingRun p rest := by
  unfold dropTrailingRun
  rw [List.reverse_append, List.reverse_cons, List.append_assoc]
  simp only [List.singleton_append]
  rw [dropWhile_append_sep p d hd _ rest.reverse, List.reverse_append]
  simp

theorem takeWhile_run (p : Char → Bool) (A : List Char) (d : Char) (Z : List Char)
    (hA : ∀ a ∈ A, p a) (hd : p d = false) :
    (A ++ d :: Z).takeWhile p = A ∧ (A ++ d :: Z).dropWhile p = d :: Z := by
  induction A with
  | nil => simp [List.takeWhile_cons, List.dropWhile_cons, hd]
  | cons a A ih =>
      have ha : p a := hA a (List.mem_cons_self a A)
      have h2 := ih (fun x hx => hA x (List.mem_cons_of_mem a hx))
      refine ⟨?_, ?_⟩
      · rw [List.cons_append, List.takeWhile_cons, if_pos ha, h2.1]
      · rw [List.cons_append, List.dropWhile_cons, if_pos ha, h2.2]

theorem maxRuns_run (p : Char → Bool) (A : List Char) (d : Char) (Z : List Char)
    (hA : ∀ a ∈ A, p a) (hd : p d = false) :
    maxRuns p (A ++ d :: Z) = if A = [] then maxRuns p Z else A :: maxRuns p Z := by
  cases A with
  | nil =>
      rw [if_pos rfl]
      simp only [List.nil_append]
      rw [maxRuns, if_neg (by simp [hd])]
  | cons a A =>
      have ha : p a := hA a (List.mem_cons_self a A)
      have htd := takeWhile_run p A d Z (fun x hx => hA x (List.mem_cons_of_mem a hx)) hd
      rw [if_neg (by simp)]
      rw [List.cons_append, maxRuns, if_pos ha, htd.1, htd.2]
      rw [maxRuns, if_neg (by simp [hd])]

theorem tokenize_eq_specTokenize_aux (isL : Char → Bool) (toLow : Char → Char) :
    ∀ n cs, cs.length ≤ n → tokenize isL toLow cs = specTokenize isL toLow cs := by
  intro n
  induction n with
  | zero =>
      intro cs hcs
      have h0 : cs = [] := List.length_eq_zero.mp (Nat.le_zero.mp hcs)
      subst h0
      simp [tokenize, tokenizeAux, specTokenize, dropTrailingRun, maxRuns]
  | succ n ih =>
      intro cs hcs
      cases hdw : cs.dropWhile (isTokChar isL) with
      | nil =>
          have hall : ∀ c ∈ cs, isTokChar isL c := List.dropWhile_eq_nil_iff.mp hdw
          rw [tokenize, tokenizeAux_all_tok isL toLow cs hall []]
          rw [specTokenize, dropTrailingRun_all (isTokChar isL) cs hall]
          simp [maxRuns]
      | cons d rest =>
          have hd : isTokChar isL d = false := by
            have hne : cs.dropWhile (isTokChar isL) ≠ [] := by rw [hdw]; simp
            have hh := List.head_dropWhile_not (isTokChar isL) cs hne
            have hhead : (cs.dropWhile (isTokChar isL)).head hne = d := by
              have h1 : (cs.dropWhile (isTokChar isL)).head? = some d := by rw [hdw]; rfl
              rw [List.head?_eq_head hne] at h1
              exact Option.some_inj.mp h1
            rw [hhead] at hh
            simpa using hh
          have hrest : rest.length ≤ n := by
            have h1 : (cs.dropWhile (isTokChar isL)).length ≤ cs.length :=
              (List.dropWhile_sublist (isTokChar isL)).length_le
            rw [hdw] at h1
            simp only [List.length_cons] at h1
            omega
          obtain ⟨A, hAall, hAsplit⟩ :
              ∃ A, (∀ a ∈ A, isTokChar isL a) ∧ cs = A ++ d :: rest :=
            ⟨cs.takeWhile (isTokChar isL), fun a ha => List.mem_takeWhile_imp ha,
              by rw [← hdw, List.takeWhile_append_dropWhile]⟩
          subst hAsplit
          rw [tokenize, tokenizeAux_run isL toLow A d rest hAall hd []]
          rw [specTokenize, dropTrailingRun_append_sep (isTokChar isL) A d rest hd,
            maxRuns_run (isTokChar isL) A d (dropTrailingRun (isTokChar isL) rest) hAall hd]
          have hihrest : tokenizeAux isL toLow [] rest = specTokenize isL toLow rest :=
            ih rest hrest
          by_cases hAnil : A = []
          · subst hAnil
            rw [if_pos (by simp), if_pos rfl, hihrest]
            rfl
          · rw [if_neg (by simp [hAnil]), if_neg hAnil]
            simp only [List.nil_append, List.map_cons]
            rw [hihrest]
            rfl

theorem tokenizeAux_ne_nil (isL : Char → Bool) (toLow : Char → Char) :
    ∀ cs w t, t ∈ tokenizeAux isL toLow w cs → t ≠ [] := by
  intro cs
  induction cs with
  | nil =>
      intro w t ht
      simp [tokenizeAux] at ht
  | cons c cs ih =>
      intro w t ht
      rw [tokenizeAux] at ht
      split at ht
      · exact ih _ t ht
      · split at ht
        · rcases List.mem_cons.mp ht with h | h
          · subst h; assumption
          · exact ih _ t h
        · exact ih _ t ht

theorem maxRuns_all_pred (p : Char → Bool) :
    ∀ n l, l.length ≤ n → ∀ r ∈ maxRuns p l, ∀ a ∈ r, p a := by
  intro n
  induction n with
  | zero =>
      intro l hl r hr
      have h0 : l = [] := List.length_eq_zero.mp (Nat.le_zero.mp hl)
      subst h0
      simp [maxRuns] at hr
  | succ n ih =>
      intro l hl r hr a ha
      cases l with
      | nil => simp [maxRuns] at hr
      | cons c cs =>
          have hcs : cs.length ≤ n := by
            simp only [List.length_cons] at hl
            omega
          rw [maxRuns] at hr
          split at hr
          next hc =>
            rcases List.mem_cons.mp hr with h | h
            · subst h
              rcases List.mem_cons.mp ha with h2 | h2
              · subst h2; exact hc
              · exact List.mem_takeWhile_imp h2
            · exact ih (cs.dropWhile p)
                (le_trans (List.dropWhile_sublist p).length_le hcs) r h a ha
          next hc => exact ih cs hcs r hr a ha

theorem isTokChar_toLower (c : Char) (h : isTokChar Char.isAlpha c = true) :
    isTokChar Char.isAlpha (Char.toLower c) = true := by
  show isTokChar Char.isAlpha (if c.toNat ≥ 65 ∧ c.toNat ≤ 90 then Char.ofNat (c.toNat + 32) else c) = true
  split
  next hcond =>
    obtain ⟨h1, h2⟩ := hcond
    generalize c.toNat = n at h1 h2
    interval_cases n <;> decide
  next => exact h

/-- C5: the tokenizer emits exactly the maximal runs of letters and
apostrophes, case-folded, in input order; a run reaching end of stream is
discarded; no emitted token is empty and (for the program's ASCII
letter-folding) no emitted token contains a separator character; the
concrete input `Don't stop--now!` tokenizes to `don't`, `stop`, `now`. -/
theorem c5_tokenizer_maximal_runs :
    (∀ (isL : Char → Bool) (toLow : Char → Char) (cs : List Char),
        tokenize isL toLow cs = specTokenize isL toLow cs)
    ∧ (∀ (isL : Char → Bool) (toLow : Char → Char) (cs : List Char) (t : Tok),
        t ∈ tokenize isL toLow cs → t ≠ [])
    ∧ (∀ (cs : List Char) (t : Tok) (c : Char),
        t ∈ tokenize Char.isAlpha Char.toLower cs → c ∈ t →
          isTokChar Char.isAlpha c = true)
    ∧ tokenize Char.isAlpha Char.toLower
        ['D', 'o', 'n', Char.ofNat 39, 't', ' ', 's', 't', 'o', 'p',
         '-', '-', 'n', 'o', 'w', '!']
      = [['d', 'o', 'n', Char.ofNat 39, 't'], ['s', 't', 'o', 'p'], ['n', 'o', 'w']] := by
  refine ⟨?_, ?_, ?_, by decide⟩
  · intro isL toLow cs
    exact tokenize_eq_specTokenize_aux isL toLow cs.length cs (Nat.le_refl _)
  · intro isL toLow cs t ht
    exact tokenizeAux_ne_nil isL toLow cs [] t ht
  · intro cs t c ht hc
    rw [tokenize_eq_specTokenize_aux Char.isAlpha Char.toLower cs.length cs (Nat.le_refl _)]
      at ht
    rw [specTokenize] at ht
    obtain ⟨r, hr, hrt⟩ := List.mem_map.mp ht
    subst hrt
    obtain ⟨a, ha, hac⟩ := List.mem_map.mp hc
    subst hac
    exact isTokChar_toLower a
      (maxRuns_all_pred (isTokChar Char.isAlpha)
        (dropTrailingRun (isTokChar Char.isAlpha) cs).length
        (dropTrailingRun (isTokChar Char.isAlpha) cs) (Nat.le_refl _) r hr a ha)

/-- Witness for C5: the hypotheses of the membership conjuncts are
discharged on the concrete `Don't stop--now!` stream. -/
theorem c5_tokenizer_witness :
    (['n', 'o', 'w'] : Tok) ≠ [] ∧ isTokChar Char.isAlpha 'n' = true :=
  ⟨c5_tokenizer_maximal_runs.2.1 Char.isAlpha Char.toLower
      ['D', 'o', 'n', Char.ofNat 39, 't', ' ', 's', 't', 'o', 'p',
       '-', '-', 'n', 'o', 'w', '!'] ['n', 'o', 'w'] (by decide),
   c5_tokenizer_maximal_runs.2.2.1
      ['D', 'o', 'n', Char.ofNat 39, 't', ' ', 's', 't', 'o', 'p',
       '-', '-', 'n', 'o', 'w', '!'] ['n', 'o', 'w'] 'n' (by decide) (by decide)⟩

/-- FNV 64-bit offset basis (initial state of `fnv.New64`). -/
def fnvOffset : ℕ := 14695981039346656037

/-- FNV 64-bit prime. -/
def fnvPrime : ℕ := 1099511628211

/-- Go's `hash/fnv.New64` (the FNV-1 variant: multiply by the prime, then
xor the byte), on `Nat` reduced modulo `2 ^ 64` after the multiply. -/
def fnv1 (bytes : List ℕ) : ℕ :=
  bytes.foldl (fun h b => Nat.xor (h * fnvPrime % 2 ^ 64) (b % 256)) fnvOffset

/-- Modelled from the claim's words: the FNV-1a variant (xor the byte, then
multiply by the prime), for comparison with the source's `fnv.New64`. -/
def fnv1a (bytes : List ℕ) : ℕ :=
  bytes.foldl (fun h b => Nat.xor h (b % 256) * fnvPrime % 2 ^ 64) fnvOffset

/-- UTF-8 byte expansion of a code point (Go's `[]byte` view of a string). -/
def utf8Bytes (n : ℕ) : List ℕ :=
  if n < 128 then [n]
  else if n < 2048 then [192 + n / 64, 128 + n % 64]
  else if n < 65536 then [224 + n / 4096, 128 + n / 64 % 64, 128 + n % 64]
  else [240 + n / 262144, 128 + n / 4096 % 64, 128 + n / 64 % 64, 128 + n % 64]

/-- Byte sequence of a token (`[]byte(a)` in the source's `hash`). -/
def tokBytes (t : Tok) : List ℕ :=
  (t.map (fun c => utf8Bytes c.toNat)).flatten

/-- Model of the source's `hash` function: the 64-bit FNV hash of the
token's UTF-8 bytes (Go's `fnv.New64`, i.e. FNV-1). -/
def hashT (t : Tok) : ℕ :=
  fnv1 (tokBytes t)

/-- Ternary transform entry from one PRNG draw: the `switch rnd.Intn(6)`
assigning +1 on draw 0, -1 on draw 1, and leaving 0 otherwise. -/
def drawValue (d : Fin 6) : ℤ :=
  if d = 0 then 1 else if d = 1 then -1 else 0

/-- Freshly computed transform for hash `h` at dimension `sz`: the cache-miss
branch of the source's `lookup` closure.  The draw sequence of
`rand.New(rand.NewSource(int64(h)))` is a pure function of `h`; it is
abstracted as `draw h`, and every theorem below holds for an arbitrary
deterministic `draw` — in particular for Go's generator. -/
def freshTransform (draw : ℕ → ℕ → Fin 6) (sz : ℕ) (h : ℕ) : List ℤ :=
  (List.range sz).map (fun i => drawValue (draw h i))

/-- Per-document projection cache (`cache map[uint64][]int8`). -/
abbrev Cache : Type := ℕ → Option (List ℤ)

/-- Fresh cache (`make(map[uint64][]int8)`). -/
def emptyCache : Cache := fun _ => none

/-- Model of the source's `lookup` closure: hash the key; on a hit return
the cached transform unchanged, on a miss compute the transform from the
hash-seeded generator and store it under the hash. -/
def lookupT (draw : ℕ → ℕ → Fin 6) (sz : ℕ) (cache : Cache) (a : Tok) :
    List ℤ × Cache :=
  match cache (hashT a) with
  | some transform => (transform, cache)
  | none =>
      (freshTransform draw sz (hashT a),
        fun x => if x = hashT a then some (freshTransform draw sz (hashT a)) else cache x)

/-- Cache soundness invariant: every stored transform is the pure transform
of its hash. -/
def CacheValid (draw : ℕ → ℕ → Fin 6) (sz : ℕ) (cache : Cache) : Prop :=
  ∀ h v, cache h = some v → v = freshTransform draw sz h

theorem cacheValid_empty (draw : ℕ → ℕ → Fin 6) (sz : ℕ) :
    CacheValid draw sz emptyCache := by
  intro h v hv
  simp [emptyCache] at hv

theorem lookupT_fst (draw : ℕ → ℕ → Fin 6) (sz : ℕ) (cache : Cache)
    (hc : CacheValid draw sz cache) (a : Tok) :
    (lookupT draw sz cache a).1 = freshTransform draw sz (hashT a) := by
  rw [lookupT]
  cases hv : cache (hashT a) with
  | none => rfl
  | some v => exact hc (hashT a) v hv

theorem lookupT_snd (draw : ℕ → ℕ → Fin 6) (sz : ℕ) (cache : Cache)
    (hc : CacheValid draw sz cache) (a : Tok) :
    CacheValid draw sz (lookupT draw sz cache a).2 := by
  rw [lookupT]
  cases hv : cache (hashT a) with
  | none =>
      intro h v hv2
      simp only at hv2
      by_cases hx : h = hashT a
      · subst hx
        rw [if_pos rfl] at hv2
        exact (Option.some_inj.mp hv2).symm
      · rw [if_neg hx] at hv2
        exact hc h v hv2
  | some v => exact hc

/-- Cache state after a sequence of lookups starting from the fresh cache
(the reachable cache states of one document processor). -/
def runLookups (draw : ℕ → ℕ → Fin 6) (sz : ℕ) (ks : List Tok) : Cache :=
  ks.foldl (fun c a => (lookupT draw sz c a).2) emptyCache

theorem runLookups_valid (draw : ℕ → ℕ → Fin 6) (sz : ℕ) (ks : List Tok) :
    CacheValid draw sz (runLookups draw sz ks) := by
  rw [runLookups]
  induction ks using List.reverseRecOn with
  | nil => exact cacheValid_empty draw sz
  | append_singleton ks a ih =>
      rw [List.foldl_append, List.foldl_cons, List.foldl_nil]
      exact lookupT_snd draw sz _ ih a

theorem drawValue_mem (d : Fin 6) :
    drawValue d = -1 ∨ drawValue d = 0 ∨ drawValue d = 1 := by
  rw [drawValue]
  split
  · right; right; rfl
  · split
    · left; rfl
    · right; left; rfl

/-- C2: the projection is deterministic and pure.  For any deterministic
draw function, any dimension `sz`, and any sequence `ks` of keys previously
projected by this document processor (so under any reachable cache state),
`lookup` on key `k` — whether it hits the cache or computes afresh — returns
exactly the pure transform of `hashT k`, independent of `ks` and of call
order; and every entry of the returned vector is -1, 0, or +1, via the
draw mapping 0 to +1, 1 to -1 and 2..5 to 0. -/
theorem c2_project_deterministic (draw : ℕ → ℕ → Fin 6) (sz : ℕ)
    (ks : List Tok) (k : Tok) :
    (lookupT draw sz (runLookups draw sz ks) k).1 = freshTransform draw sz (hashT k)
    ∧ ∀ x ∈ (lookupT draw sz (runLookups draw sz ks) k).1,
        x = -1 ∨ x = 0 ∨ x = 1 := by
  have hfst := lookupT_fst draw sz (runLookups draw sz ks)
    (runLookups_valid draw sz ks) k
  refine ⟨hfst, ?_⟩
  intro x hx
  rw [hfst, freshTransform] at hx
  obtain ⟨i, _, hix⟩ := List.mem_map.mp hx
  subst hix
  exact drawValue_mem _

/-- Witness for C2: a concrete instantiation (constant draw 2, dimension 4,
one prior lookup) whose returned vector contains the entry 0. -/
theorem c2_project_deterministic_witness :
    (lookupT (fun _ _ => (2 : Fin 6)) 4
        (runLookups (fun _ _ => (2 : Fin 6)) 4 [['a', 'b']]) ['a']).1
      = freshTransform (fun _ _ => (2 : Fin 6)) 4 (hashT ['a'])
    ∧ ((0 : ℤ) = -1 ∨ (0 : ℤ) = 0 ∨ (0 : ℤ) = 1) :=
  ⟨(c2_project_deterministic (fun _ _ => (2 : Fin 6)) 4 [['a', 'b']] ['a']).1,
   (c2_project_deterministic (fun _ _ => (2 : Fin 6)) 4 [['a', 'b']] ['a']).2 0 (by decide)⟩

/-- Counterexample for C10: the source's `hash` is Go's `fnv.New64`, the
FNV-1 variant (multiply then xor); it is not FNV-1a (xor then multiply) —
the two differ already on the single-byte key `a`. -/
theorem c10_hash_is_not_fnv1a : hashT ['a'] ≠ fnv1a (tokBytes ['a']) := by
  decide

/-- C10 (amended): the projection depends on its key only through the 64-bit
FNV-1 hash (Go's `fnv.New64`, not FNV-1a) of the key's UTF-8 bytes: under
any cache state reachable inside one document processor, two keys with equal
hashes receive the identical transform — the cache is keyed by the hash and
the generator is seeded by the hash — so two distinct colliding bigram keys
are indistinguishable to the accumulator. -/
theorem c10_projection_factors_through_hash (draw : ℕ → ℕ → Fin 6) (sz : ℕ)
    (ks : List Tok) (k1 k2 : Tok) (h : hashT k1 = hashT k2) :
    (lookupT draw sz (runLookups draw sz ks) k1).1
      = (lookupT draw sz (runLookups draw sz ks) k2).1 := by
  rw [lookupT_fst draw sz _ (runLookups_valid draw sz ks) k1,
    lookupT_fst draw sz _ (runLookups_valid draw sz ks) k2, h]

/-- Witness for C10's amended theorem: its hash-equality hypothesis
discharged at a concrete key pair. -/
theorem c10_projection_factors_witness :
    (lookupT (fun _ _ => (3 : Fin 6)) 4
        (runLookups (fun _ _ => (3 : Fin 6)) 4 []) ['a', 'b']).1
      = (lookupT (fun _ _ => (3 : Fin 6)) 4
        (runLookups (fun _ _ => (3 : Fin 6)) 4 []) ['a', 'b']).1 :=
  c10_projection_factors_through_hash (fun _ _ => (3 : Fin 6)) 4 [] ['a', 'b'] ['a', 'b'] rfl

/-- Elementwise addition of a transform into an accumulator vector:
`for i, t := range transform { vector[i] += int64(t) }`.  The target keeps
its length; positions beyond the transform's length are unchanged.  (In the
program the transform's length never exceeds the target's; see the C9
invariants below.) -/
def addInto (vector transform : List ℤ) : List ℤ :=
  vector.zipWith (· + ·) transform ++ vector.drop transform.length

/-- Full mutable state of one document processor in `ProcessStream`:
context window, document vector, word-vector map, projection cache. -/
structure PState where
  win : CircBuf
  doc : List ℤ
  words : Tok → Option (List ℤ)
  cache : Cache

/-- Initial processor state (`NewBigVector(size)` plus fresh window and
cache). -/
def PState.init (sz : ℕ) : PState :=
  ⟨CircBuf.new, List.replicate sz 0, fun _ => none, emptyCache⟩

/-- Cache-free view of the accumulator state (the observable result). -/
structure AState where
  win : CircBuf
  doc : List ℤ
  words : Tok → Option (List ℤ)

/-- Initial observable state. -/
def AState.init (sz : ℕ) : AState :=
  ⟨CircBuf.new, List.replicate sz 0, fun _ => none⟩

/-- Forget the projection cache. -/
def PState.strip (s : PState) : AState :=
  ⟨s.win, s.doc, s.words⟩

/-- Body of the source's word-vector loop (`for i := 1; i < bufferSize; i++`):
skip window entries equal to the center without touching `last`; otherwise
look up the transform of `last + current` (threading the cache), add it into
the word vector, and advance `last`. -/
def goWordLoop (draw : ℕ → ℕ → Fin 6) (sz : ℕ) (win : CircBuf) (center : Tok)
    (acc : (List ℤ × Cache) × Tok) (i : ℕ) : (List ℤ × Cache) × Tok :=
  let current := win.item i
  if current = center then acc
  else
    let tc := lookupT draw sz acc.1.2 (acc.2 ++ current)
    ((addInto acc.1.1 tc.1, tc.2), current)

/-- The per-token block of `ProcessStream` (the branch taken at a separator
with a non-empty `word`): document-vector update from
`lookup(buffer.GetPrevious() + word)`, then the word-vector update for
`center = buffer.Item(bufferSize/2)` (created zero-initialized if absent)
over offsets 1..bufferSize-1 with `last = buffer.Item(0)`, then
`buffer.Push(word)`. -/
def goStep (draw : ℕ → ℕ → Fin 6) (sz : ℕ) (s : PState) (t : Tok) : PState :=
  let tc := lookupT draw sz s.cache (s.win.getPrev ++ t)
  let vector := addInto s.doc tc.1
  let center := s.win.item (bufferSize / 2)
  let wv0 := (s.words center).getD (List.replicate sz 0)
  let res := (List.range' 1 (bufferSize - 1)).foldl
    (goWordLoop draw sz s.win center) ((wv0, tc.2), s.win.item 0)
  { win := s.win.push t
    doc := vector
    words := fun w => if w = center then some res.1.1 else s.words w
    cache := res.1.2 }

/-- Modelled from the claim's words: `project` as a pure function of the key
(fixed dimension, fixed key, identical vector on every call). -/
def projectP (draw : ℕ → ℕ → Fin 6) (sz : ℕ) (key : Tok) : List ℤ :=
  freshTransform draw sz (hashT key)

/-- Modelled from the claim's words: the context walk over window offsets
1..W-1 maintaining `last`, skipping entries equal to the center without
updating `last`, and otherwise adding `project(last + current)` elementwise
into the center's word vector. -/
def claimWordLoop (draw : ℕ → ℕ → Fin 6) (sz : ℕ) (win : CircBuf) (center : Tok)
    (acc : List ℤ × Tok) (i : ℕ) : List ℤ × Tok :=
  let current := win.item i
  if current = center then acc
  else (addInto acc.1 (projectP draw sz (acc.2 ++ current)), current)

/-- Modelled from the claim's words: the per-token accumulator update — first
add `project(previous + t)` elementwise into the document vector; then take
`center = window.item(W/2)` (creating a zero-initialized word vector if
absent) and walk offsets 1..W-1 with `last` initialized to `window.item(0)`;
only after both updates push `t` into the window. -/
def claimStep (draw : ℕ → ℕ → Fin 6) (sz : ℕ) (s : AState) (t : Tok) : AState :=
  let doc2 := addInto s.doc (projectP draw sz (s.win.getPrev ++ t))
  let center := s.win.item (bufferSize / 2)
  let wv0 := (s.words center).getD (List.replicate sz 0)
  let wv := ((List.range' 1 (bufferSize - 1)).foldl
    (claimWordLoop draw sz s.win center) (wv0, s.win.item 0)).1
  { win := s.win.push t
    doc := doc2
    words := fun w => if w = center then some wv else s.words w }

/-- The rune loop of `ProcessStream` over an in-memory character list: build
the `word` buffer from letters and apostrophes; at a separator with a
non-empty buffer run the accumulator block and clear the buffer; discard a
non-empty buffer at end of stream. -/
def goLoop (draw : ℕ → ℕ → Fin 6) (sz : ℕ) (isL : Char → Bool)
    (toLow : Char → Char) (s : PState) : Tok → List Char → PState
  | _, [] => s
  | word, c :: cs =>
    if isTokChar isL c then goLoop draw sz isL toLow s (word ++ [toLow c]) cs
    else if word ≠ [] then goLoop draw sz isL toLow (goStep draw sz s word) [] cs
    else goLoop draw sz isL toLow s word cs

/-- `ProcessStream` on a whole character stream, from the initial state. -/
def processStream (draw : ℕ → ℕ → Fin 6) (sz : ℕ) (isL : Char → Bool)
    (toLow : Char → Char) (cs : List Char) : PState :=
  goLoop draw sz isL toLow (PState.init sz) [] cs

theorem goWordLoop_eq_claimWordLoop (draw : ℕ → ℕ → Fin 6) (sz : ℕ)
    (win : CircBuf) (center : Tok) :
    ∀ (l : List ℕ) (wv : List ℤ) (cache : Cache) (last : Tok),
      CacheValid draw sz cache →
      (l.foldl (goWordLoop draw sz win center) ((wv, cache), last)).1.1
        = (l.foldl (claimWordLoop draw sz win center) (wv, last)).1
      ∧ (l.foldl (goWordLoop draw sz win center) ((wv, cache), last)).2
        = (l.foldl (claimWordLoop draw sz win center) (wv, last)).2
      ∧ CacheValid draw sz
          (l.foldl (goWordLoop draw sz win center) ((wv, cache), last)).1.2 := by
  intro l
  induction l with
  | nil => exact fun wv cache last hc => ⟨rfl, rfl, hc⟩
  | cons i l ih =>
      intro wv cache last hc
      rw [List.foldl_cons, List.foldl_cons]
      by_cases hcur : win.item i = center
      · have hg : goWordLoop draw sz win center ((wv, cache), last) i = ((wv, cache), last) := by
          rw [goWordLoop, if_pos hcur]
        have hs : claimWordLoop draw sz win center (wv, last) i = (wv, last) := by
          rw [claimWordLoop, if_pos hcur]
        rw [hg, hs]
        exact ih wv cache last hc
      · have hg : goWordLoop draw sz win center ((wv, cache), last) i
            = ((addInto wv (projectP draw sz (last ++ win.item i)),
                (lookupT draw sz cache (last ++ win.item i)).2), win.item i) := by
          rw [goWordLoop, if_neg hcur]
          simp only
          rw [lookupT_fst draw sz cache hc]
          rfl
        have hs : claimWordLoop draw sz win center (wv, last) i
            = (addInto wv (projectP draw sz (last ++ win.item i)), win.item i) := by
          rw [claimWordLoop, if_neg hcur]
        rw [hg, hs]
        exact ih _ _ _ (lookupT_snd draw sz cache hc _)

theorem goStep_strip (draw : ℕ → ℕ → Fin 6) (sz : ℕ) (s : PState) (t : Tok)
    (hc : CacheValid draw sz s.cache) :
    (goStep draw sz s t).strip = claimStep draw sz s.strip t
    ∧ CacheValid draw sz (goStep draw sz s t).cache := by
  have hmain := goWordLoop_eq_claimWordLoop draw sz s.win (s.win.item (bufferSize / 2))
    (List.range' 1 (bufferSize - 1))
    ((s.words (s.win.item (bufferSize / 2))).getD (List.replicate sz 0))
    (lookupT draw sz s.cache (s.win.getPrev ++ t)).2
    (s.win.item 0)
    (lookupT_snd draw sz s.cache hc _)
  constructor
  · simp only [goStep, claimStep, PState.strip, AState.mk.injEq]
    refine ⟨trivial, ?_, ?_⟩
    · rw [lookupT_fst draw sz s.cache hc]
      rfl
    · funext w
      rw [hmain.1]
  · simp only [goStep]
    exact hmain.2.2

theorem goLoop_strip (draw : ℕ → ℕ → Fin 6) (sz : ℕ) (isL : Char → Bool)
    (toLow : Char → Char) :
    ∀ (cs : List Char) (word : Tok) (s : PState), CacheValid draw sz s.cache →
      (goLoop draw sz isL toLow s word cs).strip
        = (tokenizeAux isL toLow word cs).foldl (claimStep draw sz) s.strip := by
  intro cs
  induction cs with
  | nil => exact fun word s _ => rfl
  | cons c cs ih =>
      intro word s hc
      rw [goLoop, tokenizeAux]
      by_cases h1 : isTokChar isL c
      · rw [if_pos h1, if_pos h1]
        exact ih _ s hc
      · rw [if_neg h1, if_neg h1]
        by_cases h2 : word ≠ []
        · rw [if_pos h2, if_pos h2, List.foldl_cons]
          have hstep := goStep_strip draw sz s word hc
          rw [← hstep.1]
          exact ih [] (goStep draw sz s word) hstep.2
        · rw [if_neg h2, if_neg h2]
          exact ih word s hc

/-- C1: running the source's character loop over any stream is exactly the
claim's per-token discipline folded over the emitted token sequence: for
every token, first the document vector absorbs `project(previous + t)`, then
the center's word vector (created zero-initialized if absent) absorbs the
context-bigram projections over offsets 1..W-1 with the stated
skip-without-updating-last rule, and only then is `t` pushed. -/
theorem c1_accumulator_per_token (draw : ℕ → ℕ → Fin 6) (sz : ℕ)
    (isL : Char → Bool) (toLow : Char → Char) (cs : List Char) :
    (processStream draw sz isL toLow cs).strip
      = (tokenize isL toLow cs).foldl (claimStep draw sz) (AState.init sz) := by
  rw [processStream, tokenize,
    goLoop_strip draw sz isL toLow cs [] (PState.init sz) (cacheValid_empty draw sz)]
  rfl

theorem addInto_getElem? (z a : List ℤ) (n : ℕ) :
    (addInto z a)[n]? = (z[n]?).map (fun x => x + ((a[n]?).getD 0)) := by
  induction z generalizing a n with
  | nil => simp [addInto]
  | cons x z ih =>
      cases a with
      | nil =>
          show (x :: z)[n]? = _
          cases hn : (x :: z)[n]? with
          | none => simp
          | some v => simp only [Option.map_some', List.getElem?_nil, Option.getD_none, add_zero]
      | cons y a =>
          have hcons : addInto (x :: z) (y :: a) = (x + y) :: addInto z a := rfl
          rw [hcons]
          cases n with
          | zero => simp
          | succ n => simpa using ih a n

theorem addInto_length (z a : List ℤ) : (addInto z a).length = z.length := by
  rw [addInto]
  simp only [List.length_append, List.length_zipWith, List.length_drop]
  omega

theorem addInto_right_comm (z a b : List ℤ) :
    addInto (addInto z a) b = addInto (addInto z b) a := by
  apply List.ext_getElem?
  intro n
  simp only [addInto_getElem?, Option.map_map]
  cases hz : z[n]? with
  | none => simp
  | some v =>
      simp only [Option.map_some', Function.comp_apply]
      congr 1
      ring

theorem addInto_assoc (x y v : List ℤ) (hxy : y.length = x.length) :
    addInto (addInto x y) v = addInto x (addInto y v) := by
  apply List.ext_getElem?
  intro n
  simp only [addInto_getElem?, Option.map_map]
  cases hx : x[n]? with
  | none => simp
  | some xv =>
      have hn : n < x.length := by
        by_contra hlt
        rw [List.getElem?_eq_none (by omega)] at hx
        exact Option.noConfusion hx
      have hyn : ∃ yv, y[n]? = some yv := by
        refine ⟨y.get ⟨n, by omega⟩, ?_⟩
        exact List.getElem?_eq_getElem (by omega)
      obtain ⟨yv, hy⟩ := hyn
      simp only [hy, Option.map_some', Option.getD_some, Function.comp_apply]
      congr 1
      ring

theorem addInto_eq_zipWith (z a : List ℤ) (h : a.length = z.length) :
    addInto z a = z.zipWith (· + ·) a := by
  rw [addInto, h, List.drop_length, List.append_nil]

theorem addInto_replicate_zero (a : List ℤ) (h : a.length = vectorSize) :
    addInto (List.replicate vectorSize 0) a = a := by
  apply List.ext_getElem?
  intro n
  rw [addInto_getElem?]
  by_cases hn : n < vectorSize
  · rw [List.getElem?_replicate, if_pos hn]
    have : ∃ av, a[n]? = some av :=
      ⟨a.get ⟨n, by omega⟩, List.getElem?_eq_getElem (by omega)⟩
    obtain ⟨av, hav⟩ := this
    simp [hav]
  · have h1 : (List.replicate vectorSize (0 : ℤ))[n]? = none :=
      List.getElem?_eq_none (by rw [List.length_replicate]; omega)
    have h2 : a[n]? = none := List.getElem?_eq_none (by omega)
    rw [h1, h2]
    rfl

/-- A completed per-document result as consumed by `Vectors.Merge`: document
name, document vector, and the word-vector entries (the iteration view of
the Go map `Words`; Go map iteration order is unspecified, so every
statement below holds for an arbitrary entry order). -/
structure DocResult where
  name : Tok
  vec : List ℤ
  words : List (Tok × List ℤ)

/-- The corpus being assembled (`Vectors`). -/
structure Corpus where
  documents : Tok → Option (List ℤ)
  words : Tok → Option (List ℤ)

/-- Fresh corpus (`NewVectors`). -/
def Corpus.empty : Corpus :=
  ⟨fun _ => none, fun _ => none⟩

/-- One iteration of the word loop in `Vectors.Merge`: fetch the corpus word
vector (creating it zero-initialized at `vectorSize` if absent) and add the
document's vector for that word elementwise into it. -/
def mergeWordEntry (ws : Tok → Option (List ℤ)) (e : Tok × List ℤ) :
    Tok → Option (List ℤ) :=
  fun w =>
    if w = e.1 then some (addInto ((ws e.1).getD (List.replicate vectorSize 0)) e.2)
    else ws w

/-- Model of `Vectors.Merge`: store the document vector under its name and
fold all word entries into the corpus word map. -/
def Corpus.merge (v : Corpus) (b : DocResult) : Corpus :=
  { documents := fun d => if d = b.name then some b.vec else v.documents d
    words := b.words.foldl mergeWordEntry v.words }

/-- Merge a batch of per-document results in arrival order (the driver's
collection loop over the channel). -/
def Corpus.mergeAll (docs : List DocResult) : Corpus :=
  docs.foldl Corpus.merge Corpus.empty

/-- Vectors contributed to key `w`, in merge order. -/
def wordContribs (docs : List DocResult) (w : Tok) : List (List ℤ) :=
  (docs.map (fun b => (b.words.filter (fun e => decide (e.1 = w))).map (fun e => e.2))).flatten

/-- Folding contributions into an optional accumulator the way
`Vectors.Merge` does: create a zero vector on first touch, then add. -/
def contribFold (o : Option (List ℤ)) (vs : List (List ℤ)) : Option (List ℤ) :=
  vs.foldl (fun acc v => some (addInto (acc.getD (List.replicate vectorSize 0)) v)) o

/-- Modelled from the claim's words: the elementwise sum of the key's
vectors over all documents, absent when no document contains the key. -/
def specMergedWord (docs : List DocResult) (w : Tok) : Option (List ℤ) :=
  if wordContribs docs w = [] then none
  else some ((wordContribs docs w).foldl (fun acc v => acc.zipWith (· + ·) v)
    (List.replicate vectorSize 0))

/-- Modelled from the claim's words: combining two separately merged word
maps (pointwise elementwise addition; a key absent on one side is taken
from the other). -/
def addOpt : Option (List ℤ) → Option (List ℤ) → Option (List ℤ)
  | none, o => o
  | some v, none => some v
  | some v1, some v2 => some (addInto v1 v2)

theorem mergeWordEntry_foldl (entries : List (Tok × List ℤ)) :
    ∀ (ws : Tok → Option (List ℤ)) (w : Tok),
      (entries.foldl mergeWordEntry ws) w
        = contribFold (ws w)
            ((entries.filter (fun e => decide (e.1 = w))).map (fun e => e.2)) := by
  induction entries with
  | nil => intro ws w; rfl
  | cons e rest ih =>
      intro ws w
      rw [List.foldl_cons, ih]
      by_cases hw : e.1 = w
      · have hfil : (e :: rest).filter (fun e2 => decide (e2.1 = w))
            = e :: rest.filter (fun e2 => decide (e2.1 = w)) := by
          simp [List.filter_cons, hw]
        rw [hfil, List.map_cons]
        have hme : mergeWordEntry ws e w
            = some (addInto ((ws w).getD (List.replicate vectorSize 0)) e.2) := by
          rw [mergeWordEntry]
          subst hw
          rw [if_pos rfl]
        rw [hme]
        rfl
      · have hfil : (e :: rest).filter (fun e2 => decide (e2.1 = w))
            = rest.filter (fun e2 => decide (e2.1 = w)) := by
          simp [List.filter_cons, hw]
        rw [hfil]
        have hme : mergeWordEntry ws e w = ws w := by
          rw [mergeWordEntry, if_neg (fun hc => hw hc.symm)]
        rw [hme]

theorem contribFold_append (o : Option (List ℤ)) (vs1 vs2 : List (List ℤ)) :
    contribFold (contribFold o vs1) vs2 = contribFold o (vs1 ++ vs2) := by
  rw [contribFold, contribFold, contribFold, List.foldl_append]

theorem mergeAll_words (docs : List DocResult) :
    ∀ (c : Corpus) (w : Tok),
      (docs.foldl Corpus.merge c).words w = contribFold (c.words w) (wordContribs docs w) := by
  induction docs with
  | nil => intro c w; rfl
  | cons b rest ih =>
      intro c w
      rw [List.foldl_cons, ih]
      have hm : (Corpus.merge c b).words w
          = contribFold (c.words w)
              ((b.words.filter (fun e => decide (e.1 = w))).map (fun e => e.2)) :=
        mergeWordEntry_foldl b.words c.words w
      rw [hm, contribFold_append]
      rfl

theorem contribFold_some (vs : List (List ℤ)) :
    ∀ x : List ℤ, contribFold (some x) vs = some (vs.foldl addInto x) := by
  induction vs with
  | nil => intro x; rfl
  | cons v vs ih =>
      intro x
      show contribFold (some (addInto x v)) vs = _
      rw [ih (addInto x v)]
      rfl

theorem contribFold_perm (vs1 vs2 : List (List ℤ)) (h : vs1.Perm vs2)
    (o : Option (List ℤ)) : contribFold o vs1 = contribFold o vs2 := by
  rw [contribFold, contribFold]
  exact h.foldl_eq'
    (fun x _ y _ z => congrArg some (addInto_right_comm (z.getD (List.replicate vectorSize 0)) x y))
    o

theorem wordContribs_perm (docs1 docs2 : List DocResult) (h : docs1.Perm docs2)
    (w : Tok) : (wordContribs docs1 w).Perm (wordContribs docs2 w) :=
  (h.map _).flatten

theorem foldl_addInto_length (vs : List (List ℤ)) :
    ∀ x : List ℤ, (vs.foldl addInto x).length = x.length := by
  induction vs with
  | nil => intro x; rfl
  | cons v vs ih =>
      intro x
      rw [List.foldl_cons, ih (addInto x v), addInto_length]

theorem foldl_addInto_assoc (vs : List (List ℤ)) :
    ∀ (x y : List ℤ), y.length = x.length →
      vs.foldl addInto (addInto x y) = addInto x (vs.foldl addInto y) := by
  induction vs with
  | nil => intro x y _; rfl
  | cons v vs ih =>
      intro x y h
      rw [List.foldl_cons, List.foldl_cons, addInto_assoc x y v h,
        ih x (addInto y v) (by rw [addInto_length, h])]

theorem contribFold_split (vs1 vs2 : List (List ℤ))
    (h2 : ∀ v ∈ vs2, (v : List ℤ).length = vectorSize) :
    contribFold none (vs1 ++ vs2) = addOpt (contribFold none vs1) (contribFold none vs2) := by
  cases vs1 with
  | nil => rfl
  | cons v vs =>
      show contribFold (some (addInto (List.replicate vectorSize 0) v)) (vs ++ vs2)
        = addOpt (contribFold (some (addInto (List.replicate vectorSize 0) v)) vs)
            (contribFold none vs2)
      rw [contribFold_some, contribFold_some, List.foldl_append]
      cases vs2 with
      | nil => rfl
      | cons u vs2' =>
          show some ((u :: vs2').foldl addInto (vs.foldl addInto _)) = _
          have hu : u.length = vectorSize := h2 u (List.mem_cons_self u vs2')
          have hX : (vs.foldl addInto (addInto (List.replicate vectorSize 0) v)).length
              = vectorSize := by
            rw [foldl_addInto_length, addInto_length, List.length_replicate]
          show some (vs2'.foldl addInto
              (addInto (vs.foldl addInto (addInto (List.replicate vectorSize 0) v)) u)) = _
          rw [foldl_addInto_assoc vs2' _ u (by rw [hu, hX])]
          have hz : contribFold none (u :: vs2')
              = some (vs2'.foldl addInto u) := by
            show contribFold (some (addInto (List.replicate vectorSize 0) u)) vs2' = _
            rw [contribFold_some, addInto_replicate_zero u hu]
          rw [hz]
          rfl

theorem wordContribs_length (docs : List DocResult) (w : Tok)
    (hlen : ∀ b ∈ docs, ∀ e ∈ b.words, (e.2 : List ℤ).length = vectorSize) :
    ∀ v ∈ wordContribs docs w, (v : List ℤ).length = vectorSize := by
  intro v hv
  rw [wordContribs] at hv
  obtain ⟨blk, hblk, hvblk⟩ := List.mem_flatten.mp hv
  obtain ⟨b, hb, rfl⟩ := List.mem_map.mp hblk
  obtain ⟨e, he, rfl⟩ := List.mem_map.mp hvblk
  exact hlen b hb e (List.mem_filter.mp he).1

theorem wordContribs_append (A B : List DocResult) (w : Tok) :
    wordContribs (A ++ B) w = wordContribs A w ++ wordContribs B w := by
  rw [wordContribs, wordContribs, wordContribs, List.map_append, List.flatten_append]

theorem foldl_addInto_eq_zipWith (vs : List (List ℤ))
    (h : ∀ v ∈ vs, (v : List ℤ).length = vectorSize) :
    ∀ x : List ℤ, x.length = vectorSize →
      vs.foldl addInto x = vs.foldl (fun acc v => acc.zipWith (· + ·) v) x := by
  induction vs with
  | nil => intro x _; rfl
  | cons v vs ih =>
      intro x hx
      have hv : v.length = vectorSize := h v (List.mem_cons_self v vs)
      rw [List.foldl_cons, List.foldl_cons, addInto_eq_zipWith x v (by rw [hv, hx])]
      refine ih (fun u hu => h u (List.mem_cons_of_mem v hu)) (x.zipWith (· + ·) v) ?_
      rw [List.length_zipWith, hx, hv]
      exact Nat.min_self _

/-- C4: merging per-document word vectors into the corpus word map is
order-independent and additive. (i) For every key, the merged vector is the
elementwise sum of that key's vectors over all documents, with documents
lacking the key contributing nothing; (ii) merging the documents in any
order yields the same word map; (iii) merging two document batches
separately and combining the word maps pointwise equals merging the
concatenation in one pass — proved for arbitrary batches, hence in
particular for disjoint document sets. -/
theorem c4_merge_additive :
    (∀ (docs : List DocResult) (w : Tok),
        (∀ b ∈ docs, ∀ e ∈ b.words, (e.2 : List ℤ).length = vectorSize) →
        (Corpus.mergeAll docs).words w = specMergedWord docs w)
    ∧ (∀ docs1 docs2 : List DocResult, docs1.Perm docs2 →
        (Corpus.mergeAll docs1).words = (Corpus.mergeAll docs2).words)
    ∧ (∀ (A B : List DocResult) (w : Tok),
        (∀ b ∈ B, ∀ e ∈ b.words, (e.2 : List ℤ).length = vectorSize) →
        (Corpus.mergeAll (A ++ B)).words w
          = addOpt ((Corpus.mergeAll A).words w) ((Corpus.mergeAll B).words w)) := by
  refine ⟨?_, ?_, ?_⟩
  · intro docs w hlen
    rw [Corpus.mergeAll, mergeAll_words docs Corpus.empty w]
    cases hvs : wordContribs docs w with
    | nil => rw [specMergedWord, if_pos hvs]; rfl
    | cons v rest =>
        rw [specMergedWord, if_neg (by rw [hvs]; simp), hvs]
        show contribFold (some (addInto (List.replicate vectorSize 0) v)) rest = _
        rw [contribFold_some]
        have hlens := wordContribs_length docs w hlen
        rw [hvs] at hlens
        have hv : v.length = vectorSize := hlens v (List.mem_cons_self v rest)
        rw [List.foldl_cons]
        rw [foldl_addInto_eq_zipWith rest
          (fun u hu => hlens u (List.mem_cons_of_mem v hu))
          (addInto (List.replicate vectorSize 0) v)
          (by rw [addInto_length, List.length_replicate])]
        rw [addInto_eq_zipWith _ v (by rw [hv, List.length_replicate])]
  · intro docs1 docs2 hperm
    funext w
    rw [Corpus.mergeAll, Corpus.mergeAll, mergeAll_words docs1 Corpus.empty w,
      mergeAll_words docs2 Corpus.empty w]
    exact contribFold_perm _ _ (wordContribs_perm docs1 docs2 hperm w) _
  · intro A B w hlen
    rw [Corpus.mergeAll, Corpus.mergeAll, Corpus.mergeAll,
      mergeAll_words (A ++ B) Corpus.empty w, mergeAll_words A Corpus.empty w,
      mergeAll_words B Corpus.empty w, wordContribs_append]
    exact contribFold_split _ _ (wordContribs_length B w hlen)

/-- Witness for C4: all hypotheses discharged on two concrete one-word
documents (both word vectors of length `vectorSize`). -/
theorem c4_merge_additive_witness :
    ((Corpus.mergeAll [⟨['x'], List.replicate vectorSize 0,
          [(['w'], List.replicate vectorSize 1)]⟩]).words ['w']
        = specMergedWord [⟨['x'], List.replicate vectorSize 0,
          [(['w'], List.replicate vectorSize 1)]⟩] ['w'])
    ∧ ((Corpus.mergeAll [⟨['x'], List.replicate vectorSize 0,
          [(['w'], List.replicate vectorSize 1)]⟩,
          ⟨['y'], List.replicate vectorSize 0, [(['w'], List.replicate vectorSize 2)]⟩]).words
        = (Corpus.mergeAll [⟨['y'], List.replicate vectorSize 0,
          [(['w'], List.replicate vectorSize 2)]⟩,
          ⟨['x'], List.replicate vectorSize 0, [(['w'], List.replicate vectorSize 1)]⟩]).words)
    ∧ ((Corpus.mergeAll ([⟨['x'], List.replicate vectorSize 0,
          [(['w'], List.replicate vectorSize 1)]⟩]
            ++ [⟨['y'], List.replicate vectorSize 0, [(['w'], List.replicate vectorSize 2)]⟩])).words ['w']
        = addOpt ((Corpus.mergeAll [⟨['x'], List.replicate vectorSize 0,
            [(['w'], List.replicate vectorSize 1)]⟩]).words ['w'])
          ((Corpus.mergeAll [⟨['y'], List.replicate vectorSize 0,
            [(['w'], List.replicate vectorSize 2)]⟩]).words ['w'])) :=
  ⟨c4_merge_additive.1 _ ['w']
      (by
        intro b hb e he
        obtain rfl := List.mem_singleton.mp hb
        obtain rfl := List.mem_singleton.mp he
        exact List.length_replicate _ _),
   c4_merge_additive.2.1 _ _ (List.Perm.swap _ _ []),
   c4_merge_additive.2.2 _ _ ['w']
      (by
        intro b hb e he
        obtain rfl := List.mem_singleton.mp hb
        obtain rfl := List.mem_singleton.mp he
        exact List.length_replicate _ _)⟩

/-- Model of the Go `float64` values reached by this program: NaN, the two
infinities, or a finite value held as an exact rational.  The integer
inputs, products and sums exercised by the concrete inputs of the theorems
below, and the square roots taken there (perfect squares or zero) are
exactly representable in IEEE doubles, where this model coincides with
`float64` arithmetic; signed zero and rounding of inexact values are not
modelled and are not relied upon. -/
inductive GoFloat where
  | nan : GoFloat
  | inf : GoFloat
  | ninf : GoFloat
  | val : ℚ → GoFloat
  deriving DecidableEq

/-- Conversion `float64(x)` of an `int64` (exact in the model). -/
def intToF (n : ℤ) : GoFloat :=
  .val (n : ℚ)

/-- IEEE addition on the modelled values. -/
def fadd : GoFloat → GoFloat → GoFloat
  | .nan, _ => .nan
  | _, .nan => .nan
  | .inf, .ninf => .nan
  | .ninf, .inf => .nan
  | .inf, _ => .inf
  | _, .inf => .inf
  | .ninf, _ => .ninf
  | _, .ninf => .ninf
  | .val a, .val b => .val (a + b)

/-- IEEE multiplication on the modelled values. -/
def fmul : GoFloat → GoFloat → GoFloat
  | .nan, _ => .nan
  | _, .nan => .nan
  | .inf, .inf => .inf
  | .inf, .ninf => .ninf
  | .ninf, .inf => .ninf
  | .ninf, .ninf => .inf
  | .inf, .val b => if b = 0 then .nan else if 0 < b then .inf else .ninf
  | .val a, .inf => if a = 0 then .nan else if 0 < a then .inf else .ninf
  | .ninf, .val b => if b = 0 then .nan else if 0 < b then .ninf else .inf
  | .val a, .ninf => if a = 0 then .nan else if 0 < a then .ninf else .inf
  | .val a, .val b => .val (a * b)

/-- IEEE division on the modelled values (`0.0 / 0.0` is NaN). -/
def fdiv : GoFloat → GoFloat → GoFloat
  | .nan, _ => .nan
  | _, .nan => .nan
  | .inf, .inf => .nan
  | .inf, .ninf => .nan
  | .ninf, .inf => .nan
  | .ninf, .ninf => .nan
  | .inf, .val b => if 0 ≤ b then .inf else .ninf
  | .ninf, .val b => if 0 ≤ b then .ninf else .inf
  | .val _, .inf => .val 0
  | .val _, .ninf => .val 0
  | .val a, .val b =>
      if b = 0 then (if a = 0 then .nan else if 0 < a then .inf else .ninf)
      else .val (a / b)

/-- Integer square root by the divide-by-four recurrence, with an explicit
structural fuel so the kernel can unfold it (the fuel only needs to exceed
`log4 n`, so passing `n` itself is ample). -/
def natSqrtGo : ℕ → ℕ → ℕ
  | 0, _ => 0
  | fuel + 1, n =>
    if n < 2 then n
    else
      let r := 2 * natSqrtGo fuel (n / 4)
      if (r + 1) * (r + 1) ≤ n then r + 1 else r

/-- Integer square root (kernel computable). -/
def natSqrt (n : ℕ) : ℕ :=
  natSqrtGo n n

/-- Rational square root, exact on perfect squares — which covers every
square root relied upon by a theorem below (hypotenuse squares and zero);
the floor behaviour on inexact arguments is never relied upon. -/
def ratSqrt (q : ℚ) : ℚ :=
  (natSqrt q.num.toNat : ℚ) / (natSqrt q.den : ℚ)

/-- IEEE square root on the modelled values (`sqrt 0 = 0`, negative
arguments give NaN). -/
def fsqrt : GoFloat → GoFloat
  | .nan => .nan
  | .inf => .inf
  | .ninf => .nan
  | .val q => if q < 0 then .nan else .val (ratSqrt q)

/-- IEEE less-than: false whenever either side is NaN. -/
def flt : GoFloat → GoFloat → Bool
  | .nan, _ => false
  | _, .nan => false
  | .inf, _ => false
  | .ninf, .ninf => false
  | .ninf, _ => true
  | .val _, .inf => true
  | .val _, .ninf => false
  | .val a, .val b => decide (a < b)

/-- NaN test. -/
def GoFloat.isNaN : GoFloat → Bool
  | .nan => true
  | _ => false

/-- The accumulation loop of `Similarity`: `for i, j := range b` with
`x, y := float64(a[i]), float64(j)`, accumulating `dot`, `xx`, `yy` in
floating point from `0.0`. -/
def simSums (pairs : List (ℤ × ℤ)) : GoFloat × GoFloat × GoFloat :=
  pairs.foldl
    (fun acc p =>
      (fadd acc.1 (fmul (intToF p.1) (intToF p.2)),
       fadd acc.2.1 (fmul (intToF p.1) (intToF p.1)),
       fadd acc.2.2 (fmul (intToF p.2) (intToF p.2))))
    (.val 0, .val 0, .val 0)

/-- Model of `Similarity(a, b)`: the loop ranges over `b` and indexes
`a[i]`, so when `b` is longer than `a` the program panics (index out of
range) — modelled as `none`; otherwise the result is
`dot / sqrt(xx * yy)`. -/
def SimilarityE (a b : List ℤ) : Option GoFloat :=
  if b.length ≤ a.length then
    some (fdiv (simSums (a.zip b)).1
      (fsqrt (fmul (simSums (a.zip b)).2.1 (simSums (a.zip b)).2.2)))
  else none

/-- The shifting phase of the demo's `insert` closure (its second loop):
place the new entry at the stopping position and push every following kept
entry one slot down, dropping the last. -/
def shiftIn (x : GoFloat × Tok) : List (GoFloat × Tok) → List (GoFloat × Tok)
  | [] => []
  | e :: rest => x :: shiftIn e rest

/-- Model of the demo's `insert` closure: the first loop advances while
`b < best[c].best` under IEEE less-than (false on NaN), the second shifts
the new entry in at the stopping position. -/
def insertBest (b : GoFloat) (l : Tok) : List (GoFloat × Tok) → List (GoFloat × Tok)
  | [] => []
  | e :: rest => if flt b e.1 then e :: insertBest b l rest else shiftIn (b, l) (e :: rest)

/-- The initial `best` array: `bestSize` zero-score entries with empty
words (Go zero values). -/
def bestInit : List (GoFloat × Tok) :=
  List.replicate bestSize (.val 0, [])

/-- The demo's word-ranking loop: for each word of the corpus (in map
iteration order) compute its similarity to the query vector and insert into
the best list; a `Similarity` panic is modelled as `none`. -/
def topKWordsE (ws : List (Tok × List ℤ)) (qv : List ℤ) :
    Option (List (GoFloat × Tok)) :=
  ws.foldl
    (fun acc e =>
      match acc, SimilarityE qv e.2 with
      | some best, some s => some (insertBest s e.1 best)
      | _, _ => none)
    (some bestInit)

/-- Go map read `m[k]` on an entry list: `none` models the zero value
(`nil`) returned on a miss. -/
def lookupWord (ws : List (Tok × List ℤ)) (k : Tok) : Option (List ℤ) :=
  (ws.find? (fun e => decide (e.1 = k))).map (fun e => e.2)

/-- The demo's word-ranking phase including the query fetch:
`queryVector := vectors.Words[queryWord]` — `nil` when the word is absent —
followed by the similarity/insert loop over all words. -/
def demoWordRank (ws : List (Tok × List ℤ)) (queryWord : Tok) :
    Option (List (GoFloat × Tok)) :=
  topKWordsE ws ((lookupWord ws queryWord).getD [])

theorem simSums_zero_left (pairs : List (ℤ × ℤ)) :
    (∀ p ∈ pairs, (p : ℤ × ℤ).1 = 0) →
    ∀ q1 q2 q3 : ℚ, ∃ q3' : ℚ,
      pairs.foldl
        (fun acc p =>
          (fadd acc.1 (fmul (intToF p.1) (intToF p.2)),
           fadd acc.2.1 (fmul (intToF p.1) (intToF p.1)),
           fadd acc.2.2 (fmul (intToF p.2) (intToF p.2))))
        (.val q1, .val q2, .val q3)
      = (.val q1, .val q2, .val q3') := by
  induction pairs with
  | nil => exact fun _ q1 q2 q3 => ⟨q3, rfl⟩
  | cons p rest ih =>
      intro hz q1 q2 q3
      have hp : p.1 = 0 := hz p (List.mem_cons_self p rest)
      rw [List.foldl_cons]
      obtain ⟨q3', hq⟩ := ih (fun r hr => hz r (List.mem_cons_of_mem p hr))
        (q1 + (p.1 : ℚ) * (p.2 : ℚ)) (q2 + (p.1 : ℚ) * (p.1 : ℚ))
        (q3 + (p.2 : ℚ) * (p.2 : ℚ))
      refine ⟨q3', ?_⟩
      show rest.foldl _
          (GoFloat.val (q1 + (p.1 : ℚ) * (p.2 : ℚ)), GoFloat.val (q2 + (p.1 : ℚ) * (p.1 : ℚ)),
           GoFloat.val (q3 + (p.2 : ℚ) * (p.2 : ℚ))) = _
      rw [hq]
      have e1 : q1 + (p.1 : ℚ) * (p.2 : ℚ) = q1 := by rw [hp]; push_cast; ring
      have e2 : q2 + (p.1 : ℚ) * (p.1 : ℚ) = q2 := by rw [hp]; push_cast; ring
      rw [e1, e2]

theorem simSums_zero_right (pairs : List (ℤ × ℤ)) :
    (∀ p ∈ pairs, (p : ℤ × ℤ).2 = 0) →
    ∀ q1 q2 q3 : ℚ, ∃ q2' : ℚ,
      pairs.foldl
        (fun acc p =>
          (fadd acc.1 (fmul (intToF p.1) (intToF p.2)),
           fadd acc.2.1 (fmul (intToF p.1) (intToF p.1)),
           fadd acc.2.2 (fmul (intToF p.2) (intToF p.2))))
        (.val q1, .val q2, .val q3)
      = (.val q1, .val q2', .val q3) := by
  induction pairs with
  | nil => exact fun _ q1 q2 q3 => ⟨q2, rfl⟩
  | cons p rest ih =>
      intro hz q1 q2 q3
      have hp : p.2 = 0 := hz p (List.mem_cons_self p rest)
      rw [List.foldl_cons]
      obtain ⟨q2', hq⟩ := ih (fun r hr => hz r (List.mem_cons_of_mem p hr))
        (q1 + (p.1 : ℚ) * (p.2 : ℚ)) (q2 + (p.1 : ℚ) * (p.1 : ℚ))
        (q3 + (p.2 : ℚ) * (p.2 : ℚ))
      refine ⟨q2', ?_⟩
      show rest.foldl _
          (GoFloat.val (q1 + (p.1 : ℚ) * (p.2 : ℚ)), GoFloat.val (q2 + (p.1 : ℚ) * (p.1 : ℚ)),
           GoFloat.val (q3 + (p.2 : ℚ) * (p.2 : ℚ))) = _
      rw [hq]
      have e1 : q1 + (p.1 : ℚ) * (p.2 : ℚ) = q1 := by rw [hp]; push_cast; ring
      have e3 : q3 + (p.2 : ℚ) * (p.2 : ℚ) = q3 := by rw [hp]; push_cast; ring
      rw [e1, e3]

theorem shiftIn_eq_dropLast (B : List (GoFloat × Tok)) :
    ∀ (e x : GoFloat × Tok), shiftIn x (e :: B) = x :: (e :: B).dropLast := by
  induction B with
  | nil => intro e x; rfl
  | cons f B ih =>
      intro e x
      show x :: shiftIn e (f :: B) = _
      rw [ih f e]
      rfl

theorem shiftIn_length (B : List (GoFloat × Tok)) :
    ∀ x, (shiftIn x B).length = B.length := by
  induction B with
  | nil => intro x; rfl
  | cons e B ih =>
      intro x
      show (shiftIn e B).length + 1 = B.length + 1
      rw [ih e]

theorem insertBest_length (B : List (GoFloat × Tok)) :
    ∀ (b : GoFloat) (l : Tok), (insertBest b l B).length = B.length := by
  induction B with
  | nil => intro b l; rfl
  | cons e B ih =>
      intro b l
      rw [insertBest]
      by_cases hb : flt b e.1
      · rw [if_pos hb]
        show (insertBest b l B).length + 1 = B.length + 1
        rw [ih b l]
      · rw [if_neg hb]
        rw [shiftIn_eq_dropLast B e (b, l)]
        show (e :: B).dropLast.length + 1 = B.length + 1
        rw [List.length_dropLast]
        rfl

/-- Modelled from the claim's words: NaN-scored entries are excluded from
the kept list, or ordered last — after every real-valued (non-NaN) score. -/
def nanLastOrExcluded (best : List (GoFloat × Tok)) : Prop :=
  ∀ i j : Fin best.length,
    (best.get i).1.isNaN = true → (best.get j).1.isNaN = false → j < i

instance (best : List (GoFloat × Tok)) : Decidable (nanLastOrExcluded best) :=
  inferInstanceAs (Decidable (∀ i j : Fin best.length,
    (best.get i).1.isNaN = true → (best.get j).1.isNaN = false → j < i))

/-- Counterexample for C7: ranking the two words `a` (vector `[1]`, cosine
1 to the query `[1]`) and `z` (the all-zero vector `[0]`, cosine NaN by
zero division), the `insert` routine places the NaN-scored word FIRST —
before the real-scored word and the real zero-score sentinels — so the
NaN entry is neither excluded nor ordered last. -/
theorem c7_counterexample :
    ¬ nanLastOrExcluded ((topKWordsE [(['a'], [1]), (['z'], [0])] [1]).getD []) := by
  decide

/-- C7 (amended): cosine similarity on an all-zero operand (either side)
yields the NaN sentinel, and the ranking consumers complete normally on
NaN-scored entries — `insert` always returns a list of the same fixed
length — but a NaN-scored candidate is inserted FIRST, ahead of every kept
entry (IEEE less-than is false on NaN, so the scan stops immediately),
rather than being excluded or ordered last. -/
theorem c7_nan_similarity_and_ranking (a b : List ℤ) :
    ((∀ x ∈ a, x = 0) → b.length ≤ a.length → SimilarityE a b = some .nan)
    ∧ ((∀ x ∈ b, x = 0) → b.length ≤ a.length → SimilarityE a b = some .nan)
    ∧ (∀ (l : Tok) (e : GoFloat × Tok) (B : List (GoFloat × Tok)),
        insertBest .nan l (e :: B) = (.nan, l) :: (e :: B).dropLast)
    ∧ (∀ (s : GoFloat) (l : Tok) (B : List (GoFloat × Tok)),
        (insertBest s l B).length = B.length) := by
  refine ⟨?_, ?_, ?_, ?_⟩
  · intro ha hbl
    have hz : ∀ p ∈ a.zip b, (p : ℤ × ℤ).1 = 0 := by
      intro p hp
      exact ha p.1 (List.of_mem_zip hp).1
    obtain ⟨q, hq⟩ := simSums_zero_left (a.zip b) hz 0 0 0
    rw [SimilarityE, if_pos hbl, simSums, hq]
    show some (fdiv (.val 0) (fsqrt (fmul (.val 0) (.val q)))) = _
    have h1 : fmul (GoFloat.val 0) (GoFloat.val q) = GoFloat.val 0 := by
      show GoFloat.val (0 * q) = GoFloat.val 0
      rw [zero_mul]
    rw [h1]
    decide
  · intro hb hbl
    have hz : ∀ p ∈ a.zip b, (p : ℤ × ℤ).2 = 0 := by
      intro p hp
      exact hb p.2 (List.of_mem_zip hp).2
    obtain ⟨q, hq⟩ := simSums_zero_right (a.zip b) hz 0 0 0
    rw [SimilarityE, if_pos hbl, simSums, hq]
    show some (fdiv (.val 0) (fsqrt (fmul (.val q) (.val 0)))) = _
    have h1 : fmul (GoFloat.val q) (GoFloat.val 0) = GoFloat.val 0 := by
      show GoFloat.val (q * 0) = GoFloat.val 0
      rw [mul_zero]
    rw [h1]
    decide
  · intro l e B
    have hflt : flt GoFloat.nan e.1 = false := by
      cases h1 : e.1 <;> rfl
    rw [insertBest, hflt]
    simp only [Bool.false_eq_true, if_false]
    rw [shiftIn_eq_dropLast B e (GoFloat.nan, l)]
  · intro s l B
    exact insertBest_length B s l

/-- Witness for C7's amended theorem: hypotheses discharged on the concrete
vectors `[0, 0]` (all-zero) and `[3, 4]`. -/
theorem c7_nan_similarity_witness :
    SimilarityE [0, 0] [3, 4] = some .nan ∧ SimilarityE [3, 4] [0, 0] = some .nan :=
  ⟨(c7_nan_similarity_and_ranking [0, 0] [3, 4]).1 (by decide) (by decide),
   (c7_nan_similarity_and_ranking [3, 4] [0, 0]).2.1 (by decide) (by decide)⟩

theorem topKWordsE_none_absorb (qv : List ℤ) (ws : List (Tok × List ℤ)) :
    ws.foldl
      (fun acc e =>
        match acc, SimilarityE qv e.2 with
        | some best, some s => some (insertBest s e.1 best)
        | _, _ => none)
      none = none := by
  induction ws with
  | nil => rfl
  | cons e rest ih =>
      rw [List.foldl_cons]
      cases hs : SimilarityE qv e.2 <;> exact ih

theorem topKWordsE_nil_query (ws : List (Tok × List ℤ)) :
    (∃ e ∈ ws, (e : Tok × List ℤ).2 ≠ []) →
    ∀ best : List (GoFloat × Tok),
      ws.foldl
        (fun acc e =>
          match acc, SimilarityE ([] : List ℤ) e.2 with
          | some best2, some s => some (insertBest s e.1 best2)
          | _, _ => none)
        (some best) = none := by
  induction ws with
  | nil =>
      rintro ⟨e, he, _⟩ best
      exact absurd he (List.not_mem_nil e)
  | cons e rest ih =>
      rintro ⟨f, hf, hfne⟩ best
      simp only [List.foldl_cons]
      cases hv : e.2 with
      | nil =>
          have hstep : (match some best, SimilarityE ([] : List ℤ) [] with
              | some best2, some s => some (insertBest s e.1 best2)
              | _, _ => none) = some (insertBest GoFloat.nan e.1 best) := rfl
          rw [hstep]
          have hrest : ∃ g ∈ rest, (g : Tok × List ℤ).2 ≠ [] := by
            rcases List.mem_cons.mp hf with h | h
            · subst h
              exact absurd hv hfne
            · exact ⟨f, h, hfne⟩
          exact ih hrest (insertBest GoFloat.nan e.1 best)
      | cons x xs =>
          have hsim : SimilarityE ([] : List ℤ) (x :: xs) = none := by
            rw [SimilarityE, if_neg (by simp)]
          rw [hsim]
          exact topKWordsE_none_absorb [] rest

/-- The demo's document-ranking loop (`for key, value := range
vectors.Documents { distances[i].D = Similarity(query, value) ... }`):
compute `Similarity(query, value)` for every document in map iteration
order, collecting the (score, name) pairs; a `Similarity` panic in any
iteration is modelled as `none`. -/
def docDistancesE (ds : List (Tok × List ℤ)) (query : List ℤ) :
    Option (List (GoFloat × Tok)) :=
  ds.foldl
    (fun acc e =>
      match acc, SimilarityE query e.2 with
      | some l, some s => some (l ++ [(s, e.1)])
      | _, _ => none)
    (some [])

/-- The demo's document-ranking phase including the query fetch:
`query := vectors.Documents[queryBook]` — `nil` when the book is absent —
followed by the distances loop over all documents. -/
def demoDocRank (ds : List (Tok × List ℤ)) (queryBook : Tok) :
    Option (List (GoFloat × Tok)) :=
  docDistancesE ds ((lookupWord ds queryBook).getD [])

theorem docDistancesE_none_absorb (query : List ℤ) (ds : List (Tok × List ℤ)) :
    ds.foldl
      (fun acc e =>
        match acc, SimilarityE query e.2 with
        | some l, some s => some (l ++ [(s, e.1)])
        | _, _ => none)
      none = none := by
  induction ds with
  | nil => rfl
  | cons e rest ih =>
      rw [List.foldl_cons]
      cases hs : SimilarityE query e.2 <;> exact ih

theorem docDistancesE_nil_query (ds : List (Tok × List ℤ)) :
    (∃ e ∈ ds, (e : Tok × List ℤ).2 ≠ []) →
    ∀ l : List (GoFloat × Tok),
      ds.foldl
        (fun acc e =>
          match acc, SimilarityE ([] : List ℤ) e.2 with
          | some l2, some s => some (l2 ++ [(s, e.1)])
          | _, _ => none)
        (some l) = none := by
  induction ds with
  | nil =>
      rintro ⟨e, he, _⟩ l
      exact absurd he (List.not_mem_nil e)
  | cons e rest ih =>
      rintro ⟨f, hf, hfne⟩ l
      simp only [List.foldl_cons]
      cases hv : e.2 with
      | nil =>
          have hstep : (match some l, SimilarityE ([] : List ℤ) [] with
              | some l2, some s => some (l2 ++ [(s, e.1)])
              | _, _ => none) = some (l ++ [(GoFloat.nan, e.1)]) := rfl
          rw [hstep]
          have hrest : ∃ g ∈ rest, (g : Tok × List ℤ).2 ≠ [] := by
            rcases List.mem_cons.mp hf with h | h
            · subst h
              exact absurd hv hfne
            · exact ⟨f, h, hfne⟩
          exact ih hrest (l ++ [(GoFloat.nan, e.1)])
      | cons x xs =>
          have hsim : SimilarityE ([] : List ℤ) (x :: xs) = none := by
            rw [SimilarityE, if_neg (by simp)]
          rw [hsim]
          exact docDistancesE_none_absorb [] rest

/-- Counterexample for C8: a corpus whose word map holds only `dog` and a
query for the absent word `sea`.  The map read returns the zero value
(`nil`); `Similarity(nil, v)` then indexes the nil slice and the ranking
dies with an index-out-of-range runtime panic (modelled `none`).  No
distinctly-reported usage/configuration error exists — the failure channel
is the same generic panic as any programming defect — refuting the claim
that the missing key is reported as a usage error distinct from I/O
errors. -/
theorem c8_missing_key_counterexample :
    demoWordRank [(['d', 'o', 'g'], [1, 2])] ['s', 'e', 'a'] = none := by
  decide

/-- C8 (amended): when the query word is absent from the word map, or the
query book is absent from the document map, the code never substitutes a
usable default vector — the `nil` map result is indexed inside `Similarity`
and the corresponding ranking loop crashes with an index-out-of-range panic
(modelled `none`) as soon as any compared vector is non-empty; the failure
is a generic runtime panic, not a distinctly-reported usage/configuration
error. -/
theorem c8_missing_key_panics (ws ds : List (Tok × List ℤ)) (q book : Tok)
    (habsentw : lookupWord ws q = none)
    (hwne : ∃ e ∈ ws, (e : Tok × List ℤ).2 ≠ [])
    (habsentd : lookupWord ds book = none)
    (hdne : ∃ e ∈ ds, (e : Tok × List ℤ).2 ≠ []) :
    demoWordRank ws q = none ∧ demoDocRank ds book = none := by
  constructor
  · rw [demoWordRank, habsentw]
    exact topKWordsE_nil_query ws hwne bestInit
  · rw [demoDocRank, habsentd]
    exact docDistancesE_nil_query ds hdne []

/-- Witness for C8's amended theorem: hypotheses discharged on a concrete
two-word word map with the query word absent, and a concrete one-document
document map with the query book absent. -/
theorem c8_missing_key_witness :
    demoWordRank [(['d', 'o', 'g'], [1, 2]), (['c', 'a', 't'], [3])] ['s', 'u', 'n'] = none
    ∧ demoDocRank [(['b', 'o', 'o', 'k'], [4, 5])] ['p', 'g'] = none :=
  c8_missing_key_panics [(['d', 'o', 'g'], [1, 2]), (['c', 'a', 't'], [3])]
    [(['b', 'o', 'o', 'k'], [4, 5])] ['s', 'u', 'n'] ['p', 'g']
    (by decide) ⟨(['d', 'o', 'g'], [1, 2]), by decide, by decide⟩
    (by decide) ⟨(['b', 'o', 'o', 'k'], [4, 5]), by decide, by decide⟩

/-- The ordering maintained by the `best` list: the kept entry is not
IEEE-less-than the probe, i.e. the scan condition `b < best[c].best`
fails.  `orderedInsert` under this relation inserts a new entry exactly
where the source's scan loop stops. -/
def rGe (x y : GoFloat × Tok) : Prop :=
  flt x.1 y.1 = false

instance : DecidableRel rGe :=
  fun x y => inferInstanceAs (Decidable (flt x.1 y.1 = false))

theorem flt_asymm (a b : GoFloat) (h : flt a b = true) : flt b a = false := by
  cases a <;> cases b <;>
    first
      | rfl
      | (simp only [flt] at h ⊢; exact decide_eq_false (by
          have h2 := of_decide_eq_true h
          exact not_lt.mpr (le_of_lt h2)))
      | (exact absurd h (by simp [flt]))

theorem rGe_total (x y : GoFloat × Tok) : rGe x y ∨ rGe y x := by
  rw [rGe, rGe]
  cases hx : flt x.1 y.1 with
  | false => left; rfl
  | true => right; exact flt_asymm x.1 y.1 hx

theorem rGe_trans_mid_val (a b c : GoFloat × Tok) (hb : ∃ q : ℚ, b.1 = GoFloat.val q)
    (hab : rGe a b) (hbc : rGe b c) : rGe a c := by
  obtain ⟨qb, hqb⟩ := hb
  rw [rGe] at hab hbc ⊢
  rw [hqb] at hab hbc
  cases ha : a.1 with
  | nan => cases c.1 <;> rfl
  | inf => cases c.1 <;> rfl
  | ninf =>
      rw [ha] at hab
      have hx : flt GoFloat.ninf (GoFloat.val qb) = true := rfl
      rw [hx] at hab
      exact absurd hab (by simp)
  | val qa =>
      rw [ha] at hab
      cases hc : c.1 with
      | nan => rfl
      | ninf => rfl
      | inf =>
          rw [hc] at hbc
          have hx : flt (GoFloat.val qb) GoFloat.inf = true := rfl
          rw [hx] at hbc
          exact absurd hbc (by simp)
      | val qc =>
          rw [hc] at hbc
          have h1 : ¬ qa < qb := by simpa [flt] using hab
          have h2 : ¬ qb < qc := by simpa [flt] using hbc
          show decide (qa < qc) = false
          simp only [decide_eq_false_iff_not]
          intro hlt
          have h3 : qb ≤ qa := not_lt.mp h1
          have h4 : qc ≤ qb := not_lt.mp h2
          exact absurd (lt_of_lt_of_le (lt_of_lt_of_le hlt h4) h3) (lt_irrefl qa)

theorem insertBest_eq_orderedInsert (B : List (GoFloat × Tok)) :
    ∀ (b : GoFloat) (l : Tok),
      insertBest b l B = (List.orderedInsert rGe (b, l) B).take B.length := by
  induction B with
  | nil => intro b l; rfl
  | cons e B ih =>
      intro b l
      rw [insertBest, List.orderedInsert]
      by_cases hb : flt b e.1
      · have hnot : ¬ rGe (b, l) e := by
          rw [rGe]
          simp [hb]
        rw [if_pos hb, if_neg hnot, List.length_cons, List.take_succ_cons, ih b l]
      · have hyes : rGe (b, l) e := by
          rw [rGe]
          revert hb
          cases flt b e.1 <;> simp
        rw [if_neg hb, if_pos hyes, List.length_cons, List.take_succ_cons]
        rw [shiftIn_eq_dropLast B e (b, l), List.dropLast_eq_take]
        rfl

theorem take_orderedInsert (n : ℕ) :
    ∀ (L : List (GoFloat × Tok)) (x : GoFloat × Tok),
      (List.orderedInsert rGe x (L.take n)).take n = (List.orderedInsert rGe x L).take n := by
  induction n with
  | zero => intro L x; rfl
  | succ n ih =>
      intro L x
      cases L with
      | nil => rfl
      | cons e L =>
          rw [List.take_succ_cons, List.orderedInsert, List.orderedInsert]
          by_cases h : rGe x e
          · rw [if_pos h, if_pos h, List.take_succ_cons, List.take_succ_cons]
            cases n with
            | zero => rfl
            | succ m =>
                rw [List.take_succ_cons, List.take_succ_cons, List.take_take]
                have : min m (m + 1) = m := by omega
                rw [this]
          · rw [if_neg h, if_neg h, List.take_succ_cons, List.take_succ_cons, ih L x]

/-- Repeated `orderedInsert` of the candidates into an accumulator. -/
def oiFold (cands : List (GoFloat × Tok)) (B : List (GoFloat × Tok)) :
    List (GoFloat × Tok) :=
  cands.foldl (fun acc c => List.orderedInsert rGe c acc) B

theorem oiFold_take_congr (n : ℕ) :
    ∀ (cands X Y : List (GoFloat × Tok)), X.take n = Y.take n →
      (oiFold cands X).take n = (oiFold cands Y).take n := by
  intro cands
  induction cands with
  | nil => exact fun X Y h => h
  | cons c cands ih =>
      intro X Y h
      show (oiFold cands (List.orderedInsert rGe c X)).take n = _
      apply ih
      rw [← take_orderedInsert n X c, h, take_orderedInsert n Y c]

theorem insertBest_foldl_eq (cands : List (GoFloat × Tok)) :
    ∀ B : List (GoFloat × Tok),
      cands.foldl (fun acc c => insertBest c.1 c.2 acc) B = (oiFold cands B).take B.length := by
  induction cands with
  | nil => exact fun B => (List.take_length B).symm
  | cons c cands ih =>
      intro B
      rw [List.foldl_cons, ih (insertBest c.1 c.2 B)]
      have hlen : (insertBest c.1 c.2 B).length = B.length := insertBest_length B c.1 c.2
      rw [hlen]
      have hins : insertBest c.1 c.2 B = (List.orderedInsert rGe c B).take B.length :=
        insertBest_eq_orderedInsert B c.1 c.2
      rw [hins]
      show (oiFold cands ((List.orderedInsert rGe c B).take B.length)).take B.length
        = (oiFold cands (List.orderedInsert rGe c B)).take B.length
      apply oiFold_take_congr
      rw [List.take_take, Nat.min_self]

theorem oiFold_eq_insertionSort (cands : List (GoFloat × Tok))
    (seed : List (GoFloat × Tok)) (hs : List.Sorted rGe seed) :
    oiFold cands seed = List.insertionSort rGe (cands.reverse ++ seed) := by
  induction cands using List.reverseRecOn with
  | nil => exact hs.insertionSort_eq.symm
  | append_singleton cs c ih =>
      have h1 : oiFold (cs ++ [c]) seed = List.orderedInsert rGe c (oiFold cs seed) := by
        rw [oiFold, oiFold, List.foldl_append, List.foldl_cons, List.foldl_nil]
      rw [h1, ih]
      have h2 : (cs ++ [c]).reverse ++ seed = c :: (cs.reverse ++ seed) := by
        rw [List.reverse_append]
        rfl
      rw [h2]
      rfl

/-- Every entry of the list carries a finite (rational-valued) score. -/
def allValScores (l : List (GoFloat × Tok)) : Prop :=
  ∀ e ∈ l, ∃ q : ℚ, (e : GoFloat × Tok).1 = GoFloat.val q

theorem sorted_orderedInsert_val (x : GoFloat × Tok) :
    ∀ l : List (GoFloat × Tok), allValScores l → List.Sorted rGe l →
      List.Sorted rGe (List.orderedInsert rGe x l) := by
  intro l
  induction l with
  | nil =>
      intro _ _
      rw [List.orderedInsert]
      exact List.sorted_singleton x
  | cons b l ih =>
      intro hval hs
      rw [List.orderedInsert]
      by_cases h : rGe x b
      · rw [if_pos h, List.sorted_cons]
        refine ⟨?_, hs⟩
        intro c hc
        rcases List.mem_cons.mp hc with rfl | hc2
        · exact h
        · exact rGe_trans_mid_val x b c (hval b (List.mem_cons_self b l)) h
            ((List.sorted_cons.mp hs).1 c hc2)
      · rw [if_neg h, List.sorted_cons]
        constructor
        · intro c hc
          rcases (List.mem_orderedInsert rGe).mp hc with h1 | hc2
          · rw [h1]
            rcases rGe_total x b with h2 | h3
            · exact absurd h2 h
            · exact h3
          · exact (List.sorted_cons.mp hs).1 c hc2
        · exact ih (fun e he => hval e (List.mem_cons_of_mem b he))
            (List.sorted_cons.mp hs).2

theorem sorted_insertionSort_val :
    ∀ l : List (GoFloat × Tok), allValScores l →
      List.Sorted rGe (List.insertionSort rGe l) := by
  intro l
  induction l with
  | nil => exact fun _ => List.sorted_nil
  | cons a l ih =>
      intro hval
      show List.Sorted rGe (List.orderedInsert rGe a (List.insertionSort rGe l))
      apply sorted_orderedInsert_val
      · intro e he
        exact hval e (List.mem_cons_of_mem a ((List.mem_insertionSort rGe).mp he))
      · exact ih (fun e he => hval e (List.mem_cons_of_mem a he))

theorem replicate_all_eq_append (a : GoFloat × Tok) :
    ∀ (u : List (GoFloat × Tok)), (∀ x ∈ u, x = a) →
      ∀ v : List (GoFloat × Tok), a :: (u ++ v) = u ++ a :: v := by
  intro u
  induction u with
  | nil => intro _ v; rfl
  | cons b u ih =>
      intro h v
      have hb : b = a := h b (List.mem_cons_self b u)
      subst hb
      rw [List.cons_append, List.cons_append]
      rw [← ih (fun x hx => h x (List.mem_cons_of_mem b hx)) v]

theorem eq_of_perm_sorted_anti :
    ∀ (l₁ l₂ : List (GoFloat × Tok)), List.Perm l₁ l₂ →
      List.Sorted rGe l₁ → List.Sorted rGe l₂ →
      (∀ x ∈ l₁, ∀ y ∈ l₁, rGe x y → rGe y x → x = y) →
      l₁ = l₂ := by
  intro l₁
  induction l₁ with
  | nil => exact fun l₂ hp _ _ _ => hp.nil_eq
  | cons a t ih =>
      intro l₂ hp hs₁ hs₂ hanti
      have ha2 : a ∈ l₂ := hp.subset (List.mem_cons_self a t)
      obtain ⟨u, v, rfl⟩ := List.append_of_mem ha2
      have hp' : List.Perm t (u ++ v) := (List.perm_cons a).mp (hp.trans List.perm_middle)
      have hsuv : List.Sorted rGe (u ++ v) :=
        hs₂.sublist ((List.sublist_cons_self a v).append_left u)
      have ht : t = u ++ v := by
        apply ih (u ++ v) hp' (List.sorted_cons.mp hs₁).2 hsuv
        intro x hx y hy
        exact hanti x (List.mem_cons_of_mem a hx) y (List.mem_cons_of_mem a hy)
      subst ht
      have hall : ∀ x ∈ u, x = a := by
        intro x hx
        have h1 : rGe x a := (List.pairwise_append.mp hs₂).2.2 x hx a
          (List.mem_cons_self a v)
        have h2 : rGe a x := (List.sorted_cons.mp hs₁).1 x
          (List.mem_append.mpr (Or.inl hx))
        exact (hanti a (List.mem_cons_self a _) x
          (List.mem_cons_of_mem a (List.mem_append.mpr (Or.inl hx))) h2 h1).symm
      exact replicate_all_eq_append a u hall v

/-- The candidate (score, word) list of the word-ranking loop, in map
iteration order. -/
def scoredList (ws : List (Tok × List ℤ)) (qv : List ℤ) : List (GoFloat × Tok) :=
  ws.map (fun e => ((SimilarityE qv e.2).getD GoFloat.nan, e.1))

/-- Modelled from the claim's words: sort the full word set by score
descending (the program's keep-order comparator) and truncate to K. -/
def specTopKWords (ws : List (Tok × List ℤ)) (qv : List ℤ) : List (GoFloat × Tok) :=
  (List.insertionSort rGe (scoredList ws qv)).take bestSize

/-- A similarity outcome that is a strictly positive finite value. -/
def isPosValScore : Option GoFloat → Prop
  | some (GoFloat.val q) => 0 < q
  | _ => False

instance : DecidablePred isPosValScore := fun o =>
  match o with
  | some (GoFloat.val q) => inferInstanceAs (Decidable (0 < q))
  | some GoFloat.nan => inferInstanceAs (Decidable False)
  | some GoFloat.inf => inferInstanceAs (Decidable False)
  | some GoFloat.ninf => inferInstanceAs (Decidable False)
  | none => inferInstanceAs (Decidable False)

theorem topKWordsE_all_some (qv : List ℤ) :
    ∀ ws : List (Tok × List ℤ), (∀ e ∈ ws, (SimilarityE qv e.2).isSome = true) →
    ∀ best : List (GoFloat × Tok),
      ws.foldl
        (fun acc e =>
          match acc, SimilarityE qv e.2 with
          | some best2, some s => some (insertBest s e.1 best2)
          | _, _ => none)
        (some best)
      = some ((scoredList ws qv).foldl (fun acc c => insertBest c.1 c.2 acc) best) := by
  intro ws
  induction ws with
  | nil => intro _ best; rfl
  | cons e rest ih =>
      intro hsome best
      obtain ⟨s, hs⟩ := Option.isSome_iff_exists.mp (hsome e (List.mem_cons_self e rest))
      simp only [List.foldl_cons, scoredList, List.map_cons]
      rw [hs]
      exact ih (fun f hf => hsome f (List.mem_cons_of_mem e hf)) (insertBest s e.1 best)

theorem sorted_replicate_rGe (n : ℕ) (x : GoFloat × Tok) (h : rGe x x) :
    List.Sorted rGe (List.replicate n x) := by
  induction n with
  | zero => exact List.sorted_nil
  | succ n ih =>
      rw [List.replicate_succ, List.sorted_cons]
      exact ⟨fun b hb => (List.eq_of_mem_replicate hb) ▸ h, ih⟩

theorem sorted_bestInit : List.Sorted rGe bestInit :=
  sorted_replicate_rGe bestSize (GoFloat.val 0, []) (by decide)

theorem sorted_append_rGe {l₁ l₂ : List (GoFloat × Tok)} (h1 : List.Sorted rGe l₁)
    (h2 : List.Sorted rGe l₂) (hcross : ∀ a ∈ l₁, ∀ b ∈ l₂, rGe a b) :
    List.Sorted rGe (l₁ ++ l₂) :=
  List.pairwise_append.mpr ⟨h1, h2, hcross⟩

/-- C3 (amended): when every candidate's cosine score is a strictly
positive finite value, the scores are pairwise distinct, and at least
`bestSize` words exist, the insert-based selection returns exactly the
`bestSize` highest-scoring words in descending order — the take-`bestSize`
truncation of the score-descending sort of the full word set.  (The
counterexample shows the unrestricted claim fails: words with negative —
or NaN — scores are dropped in favour of the zero-score sentinel entries
that initialize the best list.) -/
theorem c3_topk_equals_sort_truncate (ws : List (Tok × List ℤ)) (qv : List ℤ)
    (hpos : ∀ e ∈ ws, isPosValScore (SimilarityE qv e.2))
    (hnodup : (ws.map (fun e => SimilarityE qv e.2)).Nodup)
    (hcount : bestSize ≤ ws.length) :
    topKWordsE ws qv = some (specTopKWords ws qv) := by
  have hsome : ∀ e ∈ ws, (SimilarityE qv e.2).isSome = true := by
    intro e he
    have hp := hpos e he
    cases hse : SimilarityE qv e.2 with
    | none => rw [hse] at hp; exact hp.elim
    | some s => rfl
  have hposscored : ∀ x ∈ scoredList ws qv, ∃ q : ℚ, 0 < q ∧ x.1 = GoFloat.val q := by
    intro x hx
    obtain ⟨e, he, hxe⟩ := List.mem_map.mp hx
    have hp := hpos e he
    cases hse : SimilarityE qv e.2 with
    | none => rw [hse] at hp; exact hp.elim
    | some s =>
        rw [hse] at hp
        cases s with
        | val q =>
            refine ⟨q, hp, ?_⟩
            rw [← hxe]
            simp [hse]
        | nan => exact hp.elim
        | inf => exact hp.elim
        | ninf => exact hp.elim
  rw [topKWordsE, topKWordsE_all_some qv ws hsome bestInit]
  congr 1
  rw [insertBest_foldl_eq (scoredList ws qv) bestInit]
  have hbl : bestInit.length = bestSize := by
    rw [bestInit, List.length_replicate]
  rw [hbl, oiFold_eq_insertionSort _ _ sorted_bestInit]
  have hvalall : allValScores ((scoredList ws qv).reverse ++ bestInit) := by
    intro e he
    rcases List.mem_append.mp he with h | h
    · obtain ⟨q, _, hq⟩ := hposscored e (List.mem_reverse.mp h)
      exact ⟨q, hq⟩
    · rw [List.eq_of_mem_replicate h]
      exact ⟨0, rfl⟩
  have hkey : List.insertionSort rGe ((scoredList ws qv).reverse ++ bestInit)
      = List.insertionSort rGe (scoredList ws qv) ++ bestInit := by
    apply eq_of_perm_sorted_anti
    · refine (List.perm_insertionSort rGe _).trans ?_
      refine (((scoredList ws qv).reverse_perm).append_right bestInit).trans ?_
      exact ((List.perm_insertionSort rGe (scoredList ws qv)).symm.append_right bestInit)
    · exact sorted_insertionSort_val _ hvalall
    · refine sorted_append_rGe ?_ sorted_bestInit ?_
      · apply sorted_insertionSort_val
        intro e he
        obtain ⟨q, _, hq⟩ := hposscored e he
        exact ⟨q, hq⟩
      · intro a ha b hb
        obtain ⟨qa, hqa, ha1⟩ := hposscored a ((List.mem_insertionSort rGe).mp ha)
        rw [List.eq_of_mem_replicate hb, rGe, ha1]
        show decide (qa < 0) = false
        simp only [decide_eq_false_iff_not, not_lt]
        exact le_of_lt hqa
    · intro x hx y hy hxy hyx
      have hx2 := (List.mem_insertionSort rGe).mp hx
      have hy2 := (List.mem_insertionSort rGe).mp hy
      rcases List.mem_append.mp hx2 with hxs | hxb
      · rcases List.mem_append.mp hy2 with hys | hyb
        · obtain ⟨e1, he1, hxe⟩ := List.mem_map.mp (List.mem_reverse.mp hxs)
          obtain ⟨e2, he2, hye⟩ := List.mem_map.mp (List.mem_reverse.mp hys)
          obtain ⟨qx, hqx, hx1⟩ := hposscored x (List.mem_reverse.mp hxs)
          obtain ⟨qy, hqy, hy1⟩ := hposscored y (List.mem_reverse.mp hys)
          rw [rGe, hx1, hy1] at hxy
          rw [rGe, hy1, hx1] at hyx
          have hq1 : ¬ qx < qy := by simpa [flt] using hxy
          have hq2 : ¬ qy < qx := by simpa [flt] using hyx
          have hq : qx = qy := le_antisymm (not_lt.mp hq2) (not_lt.mp hq1)
          have hs1 : SimilarityE qv e1.2 = some (GoFloat.val qx) := by
            obtain ⟨s1, hsome1⟩ := Option.isSome_iff_exists.mp (hsome e1 he1)
            rw [hsome1]
            rw [← hxe] at hx1
            simp only [hsome1, Option.getD_some] at hx1
            rw [hx1]
          have hs2 : SimilarityE qv e2.2 = some (GoFloat.val qy) := by
            obtain ⟨s2, hsome2⟩ := Option.isSome_iff_exists.mp (hsome e2 he2)
            rw [hsome2]
            rw [← hye] at hy1
            simp only [hsome2, Option.getD_some] at hy1
            rw [hy1]
          have he12 : e1 = e2 := List.inj_on_of_nodup_map hnodup he1 he2
            (by rw [hs1, hs2, hq])
          rw [← hxe, ← hye, he12]
        · obtain ⟨qx, hqx, hx1⟩ := hposscored x (List.mem_reverse.mp hxs)
          rw [rGe, List.eq_of_mem_replicate hyb, hx1] at hyx
          have : (0 : ℚ) < qx := hqx
          exact absurd hyx (by
            show ¬ flt (GoFloat.val 0) (GoFloat.val qx) = false
            simp only [flt]
            simp [this])
      · rcases List.mem_append.mp hy2 with hys | hyb
        · obtain ⟨qy, hqy, hy1⟩ := hposscored y (List.mem_reverse.mp hys)
          rw [rGe, List.eq_of_mem_replicate hxb, hy1] at hxy
          exact absurd hxy (by
            show ¬ flt (GoFloat.val 0) (GoFloat.val qy) = false
            simp only [flt]
            simp [hqy])
        · rw [List.eq_of_mem_replicate hxb, List.eq_of_mem_replicate hyb]
  rw [hkey, specTopKWords]
  rw [List.take_append_of_le_length]
  rw [List.length_insertionSort, scoredList, List.length_map]
  exact hcount

/-- Counterexample for C3: a single word whose cosine to the query is -1.
The insert scan walks past every zero-score sentinel (since -1 < 0), so
the word is dropped and the returned list is the untouched sentinel array,
whereas sorting the full word set by score descending and truncating
returns the word — the claimed equality fails. -/
theorem c3_negative_score_counterexample :
    topKWordsE [(['w'], [-1])] [1] ≠ some (specTopKWords [(['w'], [-1])] [1]) := by
  decide

/-- Sample corpus for the C3 witness: twenty words with pairwise distinct,
strictly positive, exactly representable cosine scores against the query
`[1, 0]` (Pythagorean ratios). -/
def topkSample : List (Tok × List ℤ) :=
  [(['a'], [3, 4]), (['b'], [4, 3]), (['c'], [5, 12]), (['d'], [12, 5]),
   (['e'], [8, 15]), (['f'], [15, 8]), (['g'], [7, 24]), (['h'], [24, 7]),
   (['i'], [20, 21]), (['j'], [21, 20]), (['k'], [9, 40]), (['l'], [40, 9]),
   (['m'], [12, 35]), (['n'], [35, 12]), (['o'], [11, 60]), (['p'], [60, 11]),
   (['q'], [28, 45]), (['r'], [45, 28]), (['s'], [16, 63]), (['t'], [63, 16])]

/-- Witness for C3's amended theorem: all three hypotheses discharged on
the concrete twenty-word corpus. -/
theorem c3_topk_equals_sort_truncate_witness :
    topKWordsE topkSample [1, 0] = some (specTopKWords topkSample [1, 0]) :=
  c3_topk_equals_sort_truncate topkSample [1, 0] (by decide) (by decide) (by decide)

/-! ### C9 — every reachable vector has length `vectorSize` -/

/-- Length soundness of a projection cache: every stored transform has the
processor's dimension. -/
def CacheLen (sz : ℕ) (cache : Cache) : Prop :=
  ∀ h v, cache h = some v → v.length = sz

theorem freshTransform_length (draw : ℕ → ℕ → Fin 6) (sz h : ℕ) :
    (freshTransform draw sz h).length = sz := by
  rw [freshTransform, List.length_map, List.length_range]

theorem cacheLen_empty (sz : ℕ) : CacheLen sz emptyCache := by
  intro h v hv
  simp [emptyCache] at hv

theorem lookupT_length_fst (draw : ℕ → ℕ → Fin 6) (sz : ℕ) (cache : Cache)
    (hc : CacheLen sz cache) (a : Tok) :
    (lookupT draw sz cache a).1.length = sz := by
  rw [lookupT]
  cases hv : cache (hashT a) with
  | none => exact freshTransform_length draw sz (hashT a)
  | some v => exact hc (hashT a) v hv

theorem lookupT_length_snd (draw : ℕ → ℕ → Fin 6) (sz : ℕ) (cache : Cache)
    (hc : CacheLen sz cache) (a : Tok) :
    CacheLen sz (lookupT draw sz cache a).2 := by
  rw [lookupT]
  cases hv : cache (hashT a) with
  | none =>
      intro h v hv2
      simp only at hv2
      by_cases hx : h = hashT a
      · rw [if_pos hx] at hv2
        rw [← Option.some_inj.mp hv2]
        exact freshTransform_length draw sz (hashT a)
      · rw [if_neg hx] at hv2
        exact hc h v hv2
  | some v => exact hc

theorem goWordLoop_step_length (draw : ℕ → ℕ → Fin 6) (sz : ℕ) (win : CircBuf)
    (center : Tok) (acc : (List ℤ × Cache) × Tok) (i : ℕ)
    (hc : CacheLen sz acc.1.2) :
    (goWordLoop draw sz win center acc i).1.1.length = acc.1.1.length
    ∧ CacheLen sz (goWordLoop draw sz win center acc i).1.2 := by
  simp only [goWordLoop]
  by_cases hcur : win.item i = center
  · rw [if_pos hcur]
    exact ⟨rfl, hc⟩
  · rw [if_neg hcur]
    exact ⟨addInto_length _ _, lookupT_length_snd draw sz _ hc _⟩

theorem goWordLoop_fold_length (draw : ℕ → ℕ → Fin 6) (sz : ℕ) (win : CircBuf)
    (center : Tok) (l : List ℕ) :
    ∀ acc : (List ℤ × Cache) × Tok, CacheLen sz acc.1.2 →
      (l.foldl (goWordLoop draw sz win center) acc).1.1.length = acc.1.1.length
      ∧ CacheLen sz (l.foldl (goWordLoop draw sz win center) acc).1.2 := by
  induction l with
  | nil => exact fun acc hc => ⟨rfl, hc⟩
  | cons i l ih =>
      intro acc hc
      simp only [List.foldl_cons]
      obtain ⟨h1, h2⟩ := goWordLoop_step_length draw sz win center acc i hc
      obtain ⟨h3, h4⟩ := ih _ h2
      exact ⟨h3.trans h1, h4⟩

/-- Length soundness of the whole processor state: the document vector, every
stored word vector and every cached transform have the dimension the
processor was created with. -/
def PLenInv (sz : ℕ) (s : PState) : Prop :=
  s.doc.length = sz
  ∧ (∀ w v, s.words w = some v → v.length = sz)
  ∧ CacheLen sz s.cache

theorem pLenInv_init (sz : ℕ) : PLenInv sz (PState.init sz) := by
  refine ⟨List.length_replicate sz 0, ?_, cacheLen_empty sz⟩
  intro w v hv
  simp [PState.init] at hv

theorem goStep_length (draw : ℕ → ℕ → Fin 6) (sz : ℕ) (s : PState) (t : Tok)
    (h : PLenInv sz s) : PLenInv sz (goStep draw sz s t) := by
  obtain ⟨hd, hw, hc⟩ := h
  have hc2 : CacheLen sz (lookupT draw sz s.cache (s.win.getPrev ++ t)).2 :=
    lookupT_length_snd draw sz s.cache hc _
  have hwv0 : ((s.words (s.win.item (bufferSize / 2))).getD
      (List.replicate sz 0)).length = sz := by
    cases hws : s.words (s.win.item (bufferSize / 2)) with
    | none => simp
    | some u =>
        rw [Option.getD_some]
        exact hw _ u hws
  have hfold := goWordLoop_fold_length draw sz s.win (s.win.item (bufferSize / 2))
    (List.range' 1 (bufferSize - 1))
    (((s.words (s.win.item (bufferSize / 2))).getD (List.replicate sz 0),
      (lookupT draw sz s.cache (s.win.getPrev ++ t)).2), s.win.item 0)
    hc2
  refine ⟨?_, ?_, ?_⟩
  · simp only [goStep, addInto_length]
    exact hd
  · intro w v hv
    simp only [goStep] at hv
    by_cases hwc : w = s.win.item (bufferSize / 2)
    · rw [if_pos hwc] at hv
      rw [← Option.some_inj.mp hv]
      exact hfold.1.trans hwv0
    · rw [if_neg hwc] at hv
      exact hw w v hv
  · simp only [goStep]
    exact hfold.2

theorem goLoop_length (draw : ℕ → ℕ → Fin 6) (sz : ℕ) (isL : Char → Bool)
    (toLow : Char → Char) :
    ∀ (cs : List Char) (word : Tok) (s : PState), PLenInv sz s →
      PLenInv sz (goLoop draw sz isL toLow s word cs) := by
  intro cs
  induction cs with
  | nil => exact fun word s h => h
  | cons c cs ih =>
      intro word s h
      rw [goLoop]
      by_cases h1 : isTokChar isL c
      · rw [if_pos h1]
        exact ih _ s h
      · rw [if_neg h1]
        by_cases h2 : word ≠ []
        · rw [if_pos h2]
          exact ih [] _ (goStep_length draw sz s word h)
        · rw [if_neg h2]
          exact ih word s h

theorem processStream_length (draw : ℕ → ℕ → Fin 6) (sz : ℕ) (isL : Char → Bool)
    (toLow : Char → Char) (cs : List Char) :
    PLenInv sz (processStream draw sz isL toLow cs) :=
  goLoop_length draw sz isL toLow cs [] (PState.init sz) (pLenInv_init sz)

/-- Length soundness of the merged corpus: every stored document vector and
every stored word vector has length `vectorSize`. -/
def CorpusLenInv (c : Corpus) : Prop :=
  (∀ d v, c.documents d = some v → v.length = vectorSize)
  ∧ (∀ w v, c.words w = some v → v.length = vectorSize)

theorem mergeWordEntry_foldl_length (entries : List (Tok × List ℤ)) :
    ∀ ws : Tok → Option (List ℤ), (∀ w v, ws w = some v → v.length = vectorSize) →
      ∀ w v, (entries.foldl mergeWordEntry ws) w = some v → v.length = vectorSize := by
  induction entries with
  | nil => exact fun ws h => h
  | cons e entries ih =>
      intro ws h
      simp only [List.foldl_cons]
      apply ih
      intro w v hv
      simp only [mergeWordEntry] at hv
      by_cases hw : w = e.1
      · rw [if_pos hw] at hv
        rw [← Option.some_inj.mp hv, addInto_length]
        cases hws : ws e.1 with
        | none => simp
        | some u =>
            rw [Option.getD_some]
            exact h e.1 u hws
      · rw [if_neg hw] at hv
        exact h w v hv

theorem merge_corpusLenInv (c : Corpus) (b : DocResult)
    (hb : b.vec.length = vectorSize) (hc : CorpusLenInv c) :
    CorpusLenInv (c.merge b) := by
  obtain ⟨hd, hw⟩ := hc
  constructor
  · intro d v hv
    simp only [Corpus.merge] at hv
    by_cases h1 : d = b.name
    · rw [if_pos h1] at hv
      rw [← Option.some_inj.mp hv]
      exact hb
    · rw [if_neg h1] at hv
      exact hd d v hv
  · intro w v hv
    simp only [Corpus.merge] at hv
    exact mergeWordEntry_foldl_length b.words c.words hw w v hv

theorem mergeAll_corpusLenInv (docs : List DocResult)
    (h : ∀ d ∈ docs, d.vec.length = vectorSize) :
    CorpusLenInv (Corpus.mergeAll docs) := by
  rw [Corpus.mergeAll]
  induction docs using List.reverseRecOn with
  | nil =>
      constructor <;> intro a v hv <;> simp [Corpus.empty] at hv
  | append_singleton docs b ih =>
      rw [List.foldl_append, List.foldl_cons, List.foldl_nil]
      refine merge_corpusLenInv _ b (h b (by simp)) (ih ?_)
      intro d hd
      exact h d (by simp [hd])

/-- C9: length soundness end to end — the fresh processor's document vector
has length `vectorSize`; after processing any character stream the document
vector, every stored word vector and every cached transform have length
`vectorSize`; merging any batch of document results whose document vectors
have length `vectorSize` yields a corpus all of whose stored document and
word vectors have length `vectorSize`; and on any two vectors of length
`vectorSize` the model of `Similarity` takes its in-bounds branch (returns
`some`, never the out-of-range panic). -/
theorem c9_all_vectors_length_1024 (draw : ℕ → ℕ → Fin 6) (isL : Char → Bool)
    (toLow : Char → Char) (cs : List Char) (docs : List DocResult)
    (hdocs : ∀ d ∈ docs, d.vec.length = vectorSize) :
    ((PState.init vectorSize).doc.length = vectorSize
      ∧ PLenInv vectorSize (processStream draw vectorSize isL toLow cs))
    ∧ CorpusLenInv (Corpus.mergeAll docs)
    ∧ (∀ a b : List ℤ, a.length = vectorSize → b.length = vectorSize →
        (SimilarityE a b).isSome = true) := by
  refine ⟨⟨(pLenInv_init vectorSize).1,
    processStream_length draw vectorSize isL toLow cs⟩,
    mergeAll_corpusLenInv docs hdocs, ?_⟩
  intro a b ha hb
  rw [SimilarityE, if_pos (by rw [ha, hb])]
  rfl

/-- Concrete document result for the C9 witness. -/
def c9Doc : DocResult :=
  ⟨['d'], List.replicate vectorSize 0, [(['w'], [(1 : ℤ)])]⟩

/-- Witness for C9: the hypothesis holds for a one-document batch whose
document vector is the zero vector of length `vectorSize`, and the theorem
applies at a concrete draw function, tokenizer and stream. -/
theorem c9_all_vectors_length_1024_witness :
    (∀ d ∈ [c9Doc], d.vec.length = vectorSize)
    ∧ (((PState.init vectorSize).doc.length = vectorSize
        ∧ PLenInv vectorSize (processStream (fun _ _ => 0) vectorSize
            Char.isAlpha Char.toLower ['h', 'i', ' ']))
      ∧ CorpusLenInv (Corpus.mergeAll [c9Doc])
      ∧ (∀ a b : List ℤ, a.length = vectorSize → b.length = vectorSize →
          (SimilarityE a b).isSome = true)) :=
  ⟨by intro d hd; rw [List.mem_singleton] at hd; subst hd; simp [c9Doc],
   c9_all_vectors_length_1024 (fun _ _ => 0) Char.isAlpha Char.toLower
     ['h', 'i', ' '] [c9Doc]
     (by intro d hd; rw [List.mem_singleton] at hd; subst hd; simp [c9Doc])⟩
